import Mathlib

/-!
Verification of the polyhedra-viewer operation engine against its
natural-language specification.

JavaScript sources are shallowly embedded in Lean:
* vertex positions become rational triples (tolerance comparison is exact);
* a `Polyhedron` is its list of vertex positions plus its list of faces,
  each face a cyclic list of vertex indices;
* JS objects used as maps become association lists preserving insertion
  order; absent-key reads become `Option` or explicit defaults;
* JS exceptions become `Except`, JS `undefined` results become `none`.

Definitions translated from files that are present under src/ follow those
files; the handful of collaborators that are not under src/ (the geometry
class `math/polyhedra`, `math/linAlg`, the solid catalog and the Conway
translation tables) are modelled from the spec and marked as such in their
doc comments.
-/

/-- A 3D vertex position.  The source stores float vectors; positions are
embedded as rational triples so that the tolerance comparison is exact and
decidable. -/
abbrev Point : Type := ℚ × ℚ × ℚ

/-- Modelled from the spec: the fixed numeric tolerance `PRECISION` used by
the geometry primitives (`math/linAlg` is not under src/). -/
def PRECISION : ℚ := 1 / 1000

/-- Decides `|x - y| < PRECISION` (see `ratWithin_iff`), written with
integer cross-multiplication so that it evaluates by kernel reduction. -/
def ratWithin (x y : ℚ) : Bool :=
  (x.num * (y.den : Int) - y.num * (x.den : Int)).natAbs * 1000 < x.den * y.den

/-- Modelled from the spec: tolerance-aware equality of positions
(`equalsWithTolerance` from `math/linAlg`, which is not under src/):
componentwise approximate equality under `PRECISION`. -/
def equalsWithTolerance (a b : Point) : Bool :=
  ratWithin a.1 b.1 && ratWithin a.2.1 b.2.1 && ratWithin a.2.2 b.2.2

/-- The polyhedron data model (spec section 3): an ordered list of vertex
positions and an ordered list of faces, each face an ordered cyclic list of
vertex indices.  The implementing class (`math/polyhedra`, not under src/)
carries derived caches; the operations below manipulate exactly these two
components, matching `withVertices` / `withFaces` / `mapFaces` /
`addFaces` (spec section 4.2), which replace the corresponding component. -/
structure Polyhedron where
  vertices : List Point
  faces : List (List Nat)
deriving DecidableEq

/-- The helper `mod` from src/utils.ts: `a >= 0 ? a % b : (a % b) + b`,
where `%` is the JS remainder (truncated division, sign of the dividend),
which is `Int.tmod`. -/
def mod (a b : Int) : Int :=
  if a ≥ 0 then a.tmod b else a.tmod b + b

/-- `getCyclic` from src/utils.ts: `array[mod(index, array.length)]`.
A JS out-of-range read yields `undefined`, embedded here as `none`. -/
def getCyclic {α : Type} (array : List α) (index : Int) : Option α :=
  array[(mod index array.length).toNat]?

/-- `getInverseOperation` from src/constants/relations.js.  The JS switch
has fallthrough cases "d" and "g" returning the operation itself, swaps
"+" and "-", and prefixes a tilde in the default case. -/
def getInverseOperation (operation : String) : String :=
  if operation = "d" then operation
  else if operation = "g" then operation
  else if operation = "+" then "-"
  else if operation = "-" then "+"
  else "~" ++ operation

/-- An operation map: a JS object keyed by operation symbol, each value the
(normalized) array of possible resulting solids.  A `none` entry embeds a
JS `null` sink (the stray nulls produced from the periodic table). -/
abbrev OpMap : Type := List (String × List (Option String))

/-- A transformation graph from src/constants/relations.js: a JS object
keyed by solid identifier, each value an operation map.  Association lists
preserve JS object insertion order. -/
abbrev Graph : Type := List (String × OpMap)

/-- Reading a key from a JS-object association list: the first matching
entry, or `none` when the key is absent. -/
def jsGet {β : Type} (obj : List (String × β)) (key : String) : Option β :=
  (obj.find? (fun e => e.1 == key)).map (fun e => e.2)

/-- The sink array of an operation map at a symbol, empty when absent. -/
def opGet (ops : OpMap) (operation : String) : List (Option String) :=
  (jsGet ops operation).getD []

/-- The edge list reachable from a (solid, operation) pair: the array at
`graph[solid][operation]`, or empty when either key is absent. -/
def lookupEdges (g : Graph) (solid operation : String) : List (Option String) :=
  ((jsGet g solid).map (fun ops => opGet ops operation)).getD []

/-- `if (!result[sink]) result[sink] = {}` in makeBidirectional: add an
empty entry for the key at the end (JS insertion order) if absent. -/
def ensureKey (r : Graph) (s : String) : Graph :=
  if (r.find? (fun e => e.1 == s)).isSome then r else r ++ [(s, [])]

/-- Pointwise update of the operation map at a solid key. -/
def modifyKey (r : Graph) (s : String) (f : OpMap → OpMap) : Graph :=
  r.map (fun e => if e.1 == s then (e.1, f e.2) else e)

/-- `if (!result[sink][reverseOp]) result[sink][reverseOp] = []`: add an
empty array for the operation key if absent. -/
def ensureOp (ops : OpMap) (op : String) : OpMap :=
  if (ops.find? (fun e => e.1 == op)).isSome then ops else ops ++ [(op, [])]

/-- `result[sink][reverseOp].push(source)`: append to the array at the
operation key. -/
def pushOp (ops : OpMap) (op : String) (v : Option String) : OpMap :=
  ops.map (fun e => if e.1 == op then (e.1, e.2 ++ [v]) else e)

/-- The body of the innermost loop of `makeBidirectional`
(src/constants/relations.js): skip falsy sinks (`null` or the empty
string), ensure `result[sink][reverseOp]` exists, and push the source
unless the edge is a self-loop. -/
def addInverseEdge (result : Graph) (source operation : String)
    (sink : Option String) : Graph :=
  match sink with
  | none => result
  | some s =>
    if s == "" then result
    else
      let reverseOp := getInverseOperation operation
      let r1 := ensureKey result s
      let r2 := modifyKey r1 s (fun ops => ensureOp ops reverseOp)
      if s == source then r2
      else modifyKey r2 s (fun ops => pushOp ops reverseOp (some source))

/-- The two outer loops of `makeBidirectional`: iterate over the entries of
the graph and their operation arrays. -/
def addInverseEdges (result : Graph) (source : String) (ops : OpMap) : Graph :=
  ops.foldl (fun res e => e.2.foldl (fun r sink => addInverseEdge r source e.1 sink) res)
    result

/-- The `result` object built by `makeBidirectional` before the final
merge. -/
def makeBidirectionalResult (graph : Graph) : Graph :=
  graph.foldl (fun res e => addInverseEdges res e.1 e.2) []

/-- One level of the lodash `_.mergeWith` recursion on JS objects: keys of
the first object keep their insertion order and combine values on
collision, keys only in the second object are appended in its order. -/
def jsMergeWith {β : Type} (comb : β → β → β) (a b : List (String × β)) :
    List (String × β) :=
  a.map (fun e =>
      match jsGet b e.1 with
      | some v => (e.1, comb e.2 v)
      | none => e)
    ++ b.filter (fun e => !(a.find? (fun e2 => e2.1 == e.1)).isSome)

/-- The lodash `mergeWith` customizer from src/constants/relations.js at
the operation-map level: arrays on key collision concatenate (existing
entries first). -/
def mergeOpMaps : OpMap → OpMap → OpMap :=
  jsMergeWith (fun x y => x ++ y)

/-- `graphMerge` from src/constants/relations.js: `_.mergeWith` with the
array-concatenating customizer, specialized to two graphs. -/
def graphMerge : Graph → Graph → Graph :=
  jsMergeWith mergeOpMaps

/-- `makeBidirectional` from src/constants/relations.js: build the reverse
edges into a fresh object, then merge the original graph into it. -/
def makeBidirectional (graph : Graph) : Graph :=
  graphMerge (makeBidirectionalResult graph) graph

/-- Modelled from the spec: the bidirectional translation between
human-readable solid names and Conway-style shorthand
(`toConwayNotation` / `fromConwayNotation` from constants/polyhedra, which
is not under src/).  The spec states it is a pure, total, bidirectional
function with no information loss for catalog members; a representative
finite table is used, with identity fallback off the table. -/
def conwayTable : List (String × String) :=
  [("tetrahedron", "T"), ("cube", "C"), ("octahedron", "O"),
    ("dodecahedron", "D"), ("icosahedron", "I"), ("cuboctahedron", "aC"),
    ("triangular-bipyramid", "J12")]

/-- Modelled from the spec: name to Conway shorthand (see `conwayTable`). -/
def toConway (solid : String) : String :=
  ((conwayTable.find? (fun e => e.1 == solid)).map (fun e => e.2)).getD solid

/-- Modelled from the spec: Conway shorthand to name (see `conwayTable`). -/
def fromConway (code : String) : String :=
  ((conwayTable.find? (fun e => e.2 == code)).map (fun e => e.1)).getD code

/-- `getNextPolyhedron` from src/constants/relations.js, stated over the
graph it reads (the source closes over `polyhedraGraph`, whose
periodic-table-derived subgraphs are not under src/).  A JS `TypeError`
from reading a property of `undefined` and the explicit multi-candidate
`throw` are embedded as `Except.error`; the JS translation of an
`undefined` or `null` zeroth candidate is embedded as `none`. -/
def getNextPolyhedron (g : Graph) (solid operation : String) :
    Except String (Option String) :=
  match jsGet g (toConway solid) with
  | none => .error "TypeError: polyhedraGraph has no entry for the solid"
  | some ops =>
    match jsGet ops operation with
    | none => .error "TypeError: cannot read length of undefined"
    | some next =>
      if next.length > 1 then
        .error "Cannot deal with more than one possibility right now"
      else .ok ((next.getD 0 none).map fromConway)

/-- Modelled from the spec: operation configuration passed through the
reducer to the geometric operations (a face pick or a named option such as
a twist direction); opaque to the reducer itself. -/
abbrev Config : Type := Option String

/-- The type of the geometric operations the reducer dispatches to
(augment, diminish, gyrate from math/operations, which is not under
src/). -/
abbrev OpFn : Type := Polyhedron → Config → Polyhedron

/-- The redux state of src/reducers/polyhedron.js: the current solid name
and its polyhedron data. -/
structure AppState where
  name : String
  data : Polyhedron
deriving DecidableEq

/-- The two action shapes of src/reducers/polyhedron.js. -/
inductive ReduxAction where
  | setPolyhedron (name : String)
  | applyOperation (operation : String) (name : String) (config : Config)
deriving DecidableEq

/-- The canonical tetrahedron, with faces wound so that every edge belongs
to exactly two faces. -/
def tetrahedron : Polyhedron :=
  ⟨[(1, 1, 1), (1, -1, -1), (-1, 1, -1), (-1, -1, 1)],
    [[0, 1, 2], [0, 3, 1], [0, 2, 3], [1, 3, 2]]⟩

/-- Modelled from the spec: the canonical solid catalog (constants/polyhedra
and the solid data files are not under src/); a representative finite
table. -/
def solidCatalog : List (String × Polyhedron) :=
  [("tetrahedron", tetrahedron)]

/-- `isValidSolid` from constants/polyhedra, modelled from the spec as
membership in the canonical solid catalog. -/
def isValidSolid (name : String) : Bool :=
  (solidCatalog.find? (fun e => e.1 == name)).isSome

/-- `Polyhedron.get` modelled from the spec: load a canonical solid by
name.  The spec says a missing name fails with a NotFoundError; the
reducer only calls this behind an `isValidSolid` guard, so the default
value is unreachable there. -/
def polyhedronGet (name : String) : Polyhedron :=
  ((solidCatalog.find? (fun e => e.1 == name)).map (fun e => e.2)).getD ⟨[], []⟩

/-- The `operations` dispatch map of src/reducers/polyhedron.js (the
elongate entries are commented out in the source), parameterized by the
three geometric operations imported from math/operations. -/
def operationsMap (augment diminish gyrate : OpFn) : List (String × OpFn) :=
  [("+", augment), ("-", diminish), ("g", gyrate)]

/-- The reducer of src/reducers/polyhedron.js.  SET_POLYHEDRON returns the
state unchanged unless the name is a valid solid; APPLY_OPERATION looks the
symbol up in the dispatch map (a JS falsy check) and returns the state
unchanged when it is absent. -/
def polyhedronReducer (augment diminish gyrate : OpFn) (state : AppState)
    (action : ReduxAction) : AppState :=
  match action with
  | .setPolyhedron name =>
    if isValidSolid name then { state with data := polyhedronGet name, name := name }
    else state
  | .applyOperation operation name config =>
    match ((operationsMap augment diminish gyrate).find?
        (fun e => e.1 == operation)).map (fun e => e.2) with
    | none => state
    | some f => { state with data := f state.data config, name := name }

/-- lodash `_.uniq` (used by deduplicateVertices): the duplicate-free list
keeping the first occurrence of each element, via an accumulator of seen
elements. -/
def uniqAux (seen : List Nat) : List Nat → List Nat
  | [] => []
  | a :: l => if a ∈ seen then uniqAux seen l else a :: uniqAux (a :: seen) l

/-- lodash `_.uniq`: duplicate-free, first occurrences kept. -/
def uniq (l : List Nat) : List Nat :=
  uniqAux [] l

/-- `vertsInFaces` from removeExtraneousVertices
(src/math/operations/operationUtils.js): every vertex index appearing in
some face. -/
def vertsInFaces (p : Polyhedron) : List Nat :=
  p.faces.flatten

/-- `toRemove` from removeExtraneousVertices: the vertex indices referenced
by no face, in increasing order. -/
def toRemove (p : Polyhedron) : List Nat :=
  (List.range p.vertices.length).filter (fun i => !(vertsInFaces p).contains i)

/-- The kept vertices among the trailing `numToRemove` ones:
`_(polyhedron.vertices).takeRight(numToRemove).filter(v => !v.inSet(toRemove))`
from removeExtraneousVertices, as indices. -/
def lastKept (p : Polyhedron) : List Nat :=
  ((List.range p.vertices.length).drop
      (p.vertices.length - (toRemove p).length)).filter
    (fun i => !(toRemove p).contains i)

/-- The `newToOld` index map of removeExtraneousVertices: the i-th kept
trailing vertex is sent to the i-th removed slot. -/
def newToOld (p : Polyhedron) : List (Nat × Nat) :=
  (lastKept p).zip (toRemove p)

/-- The `oldToNew` index map of removeExtraneousVertices: `_.invert` of
`newToOld`. -/
def oldToNew (p : Polyhedron) : List (Nat × Nat) :=
  (newToOld p).map (fun q => (q.2, q.1))

/-- `_.get(map, key, key)` on a sparse index map: the stored value, or the
key itself when absent. -/
def agetD (assoc : List (Nat × Nat)) (k : Nat) : Nat :=
  match assoc.find? (fun q => q.1 == k) with
  | some q => q.2
  | none => k

/-- `removeExtraneousVertices` from src/math/operations/operationUtils.js:
drop the vertices referenced by no face, moving kept trailing vertices into
the freed slots, and remap the faces through `newToOld`. -/
def removeExtraneousVertices (p : Polyhedron) : Polyhedron :=
  ⟨((List.range p.vertices.length).map
        (fun i => p.vertices.getD (agetD (oldToNew p) i) default)).take
      (p.vertices.length - (toRemove p).length),
    p.faces.map (fun face => face.map (fun i => agetD (newToOld p) i))⟩

/-- The scan of `deduplicateVertices` over the vertices (a lodash forEach
with index): group vertices by tolerance-equality against the list of
uniques seen so far, producing the uniques (vertex and original index, as
the JS code stores vertex objects) and the `oldToNew` reassignment, indexed
by position. -/
def dedupScanGo : List (Nat × Point) → List (Point × Nat) → List Nat →
    List (Point × Nat) × List Nat
  | [], unique, acc => (unique, acc)
  | iv :: rest, unique, acc =>
    match unique.find? (fun pt => equalsWithTolerance iv.2 pt.1) with
    | none => dedupScanGo rest (unique ++ [(iv.2, iv.1)]) (acc ++ [iv.1])
    | some pt => dedupScanGo rest unique (acc ++ [pt.2])

/-- The completed scan of `deduplicateVertices` over the vertex list. -/
def dedupScan (vertices : List Point) : List (Point × Nat) × List Nat :=
  dedupScanGo vertices.enum [] []

/-- The new face list built by `deduplicateVertices`: faces remapped
through `oldToNew`, de-duplicated with `_.uniq`, and dropped when fewer
than 3 vertices remain. -/
def dedupFaces (p : Polyhedron) : List (List Nat) :=
  (p.faces.map (fun face =>
      uniq (face.map (fun i => ((dedupScan p.vertices).2).getD i i)))).filter
    (fun vIndices => decide (3 ≤ vIndices.length))

/-- `deduplicateVertices` from src/math/operations/operationUtils.js: merge
tolerance-equal vertices, rewrite and filter the faces, then remove the now
unreferenced vertices. -/
def deduplicateVertices (polyhedron : Polyhedron) : Polyhedron :=
  removeExtraneousVertices ⟨polyhedron.vertices, dedupFaces polyhedron⟩

/-- Modelled from the spec: the derived vertex-to-adjacent-faces index of
the Polyhedron data model (`v.adjacentFaces()`; the class is not under
src/): the faces containing the vertex, in face-list order. -/
def adjacentFaces (p : Polyhedron) (v : Nat) : List Nat :=
  (p.faces.enum.filter (fun fi => fi.2.contains v)).map (fun fi => fi.1)

/-- The consecutive cyclic pairs of a list: each element paired with its
cyclic successor. -/
def cyclePairs {α : Type} (l : List α) : List (α × α) :=
  l.zip (l.drop 1 ++ l.take 1)

/-- Modelled from the spec: the faces adjacent to the undirected edge
(a, b) (`edge.adjacentFaces()`; the Polyhedron class is not under src/):
the faces whose cyclic vertex pairs contain the edge, in face-list
order. -/
def edgeFaces (p : Polyhedron) (a b : Nat) : List Nat :=
  (p.faces.enum.filter
      (fun fi => (cyclePairs fi.2).contains (a, b) ||
        (cyclePairs fi.2).contains (b, a))).map (fun fi => fi.1)

/-- An edge of the derived edge cache: its two vertices in first-occurrence
order and its two adjacent faces. -/
structure SEdge where
  v1 : Nat
  v2 : Nat
  f1 : Nat
  f2 : Nat
deriving DecidableEq

/-- Collect each undirected vertex pair once, at its first occurrence. -/
def edgePairsGo (seen : List (Nat × Nat)) : List (Nat × Nat) → List (Nat × Nat)
  | [] => []
  | q :: rest =>
    if (q.1, q.2) ∈ seen ∨ (q.2, q.1) ∈ seen then edgePairsGo seen rest
    else q :: edgePairsGo (q :: seen) rest

/-- The undirected vertex pairs of all edges, each once, scanning the faces
in order and each face cyclically. -/
def edgePairs (p : Polyhedron) : List (Nat × Nat) :=
  edgePairsGo [] (p.faces.flatMap cyclePairs)

/-- Modelled from the spec: the derived `edges` cache of the Polyhedron
data model (not under src/): unordered pairs of adjacent vertices, each
edge knowing its two adjacent faces. -/
def edges (p : Polyhedron) : List SEdge :=
  (edgePairs p).map (fun q =>
    ⟨q.1, q.2, (edgeFaces p q.1 q.2).getD 0 0, (edgeFaces p q.1 q.2).getD 1 0⟩)

/-- The twist parameter of snub-type operations. -/
inductive Twist where
  | left
  | right
deriving DecidableEq

/-- `getEdgeFacePaths` from src/math/operations/operationUtils.js: the
(face, vertex) paths of the one or two new faces bridging an edge,
depending on the twist. -/
def getEdgeFacePaths (edge : SEdge) (twist : Option Twist) :
    List (List (Nat × Nat)) :=
  match twist with
  | some .right =>
    [[(edge.f1, edge.v1), (edge.f2, edge.v2), (edge.f1, edge.v2)],
      [(edge.f1, edge.v1), (edge.f2, edge.v1), (edge.f2, edge.v2)]]
  | some .left =>
    [[(edge.f1, edge.v2), (edge.f1, edge.v1), (edge.f2, edge.v1)],
      [(edge.f2, edge.v1), (edge.f2, edge.v2), (edge.f1, edge.v2)]]
  | none =>
    [[(edge.f1, edge.v2), (edge.f1, edge.v1), (edge.f2, edge.v1),
      (edge.f2, edge.v2)]]

/-- The `count` of duplicateVertices:
`polyhedron.getVertex().adjacentFaces().length`, the number of adjacent
faces of the FIRST vertex, applied to every vertex. -/
def dupCount (p : Polyhedron) : Nat :=
  (adjacentFaces p 0).length

/-- The `newVertexMapping` of duplicateVertices: the duplicate index
assigned to the (face, vertex) incidence, `v.index * count + i` where `i`
is the position of the face among the adjacent faces of the vertex. -/
def newVertexMapping (p : Polyhedron) (f v : Nat) : Nat :=
  v * dupCount p + (adjacentFaces p v).indexOf f

/-- `duplicateVertices` from src/math/operations/operationUtils.js: repeat
every vertex `count` times, rewrite each face through its private
duplicates, add one face per original vertex connecting its duplicates, and
add the bridging faces of every edge. -/
def duplicateVertices (p : Polyhedron) (twist : Option Twist) : Polyhedron :=
  ⟨p.vertices.flatMap (fun v => List.replicate (dupCount p) v),
    (p.faces.enum.map (fun fi => fi.2.map (fun v => newVertexMapping p fi.1 v)))
      ++ (List.range p.vertices.length).map
        (fun v => List.range' (v * dupCount p) (dupCount p))
      ++ (edges p).flatMap (fun edge =>
        (getEdgeFacePaths edge twist).map
          (fun face => face.map (fun q => newVertexMapping p q.1 q.2)))⟩

/-- Structural invariant (spec section 3): every face references only
valid vertex indices. -/
def validFaces (p : Polyhedron) : Prop :=
  ∀ face ∈ p.faces, ∀ i ∈ face, i < p.vertices.length

instance (p : Polyhedron) : Decidable (validFaces p) := by
  unfold validFaces
  infer_instance

/-- Structural invariant (spec section 3): every face has at least 3
distinct vertices. -/
def facesGood (p : Polyhedron) : Prop :=
  ∀ face ∈ p.faces, face.Nodup ∧ 3 ≤ face.length

instance (p : Polyhedron) : Decidable (facesGood p) := by
  unfold facesGood
  infer_instance

/-- Structural invariant (spec section 3): vertex indices are contiguous
from 0, i.e. every vertex slot is referenced by some face (no extraneous
vertex sits in the index range). -/
def allReferenced (p : Polyhedron) : Prop :=
  ∀ j ∈ List.range p.vertices.length, j ∈ vertsInFaces p

instance (p : Polyhedron) : Decidable (allReferenced p) := by
  unfold allReferenced
  infer_instance

/-- The number of face incidences of the undirected edge (a, b): how many
consecutive cyclic pairs over all faces equal (a, b) or (b, a). -/
def edgeCount (p : Polyhedron) (a b : Nat) : Nat :=
  (p.faces.flatMap cyclePairs).countP
    (fun q => (q.1 == a && q.2 == b) || (q.1 == b && q.2 == a))

/-- Structural invariant (spec section 3): every edge belongs to exactly
two faces (closed manifold). -/
def manifold (p : Polyhedron) : Prop :=
  ∀ a ∈ List.range p.vertices.length, ∀ b ∈ List.range p.vertices.length,
    edgeCount p a b ≠ 0 → edgeCount p a b = 2

instance (p : Polyhedron) : Decidable (manifold p) := by
  unfold manifold
  infer_instance

/-- The conjunction of the structural invariants of spec section 3. -/
def wellFormed (p : Polyhedron) : Prop :=
  validFaces p ∧ facesGood p ∧ allReferenced p ∧ manifold p

instance (p : Polyhedron) : Decidable (wellFormed p) := by
  unfold wellFormed
  infer_instance

/-- A combinatorial octahedron whose two base vertices 1 and 3 coincide: a
well-formed polyhedron (all invariants hold) on which vertex merging breaks
the manifold property. -/
def octLike : Polyhedron :=
  ⟨[(0, 0, 1), (1, 0, 0), (0, 1, 0), (1, 0, 0), (0, -1, 0), (0, 0, -1)],
    [[0, 1, 2], [0, 2, 3], [0, 3, 4], [0, 4, 1], [5, 2, 1], [5, 3, 2],
      [5, 4, 3], [5, 1, 4]]⟩

/-- A doubled triangle on vertices 1, 2, 3 with the unreferenced vertex 0
in front: removing vertex 0 swaps vertex 3 into slot 0. -/
def unrefFirst : Polyhedron :=
  ⟨[(0, 0, 0), (1, 0, 0), (0, 1, 0), (0, 0, 1)], [[1, 2, 3], [3, 2, 1]]⟩

/-- A square pyramid with the apex last: the base vertices have 3 adjacent
faces (so `count` is 3) while the apex has 4. -/
def squarePyramid : Polyhedron :=
  ⟨[(1, 1, 0), (1, -1, 0), (-1, -1, 0), (-1, 1, 0), (0, 0, 2)],
    [[3, 2, 1, 0], [0, 1, 4], [1, 2, 4], [2, 3, 4], [3, 0, 4]]⟩

/-- Stated from the claim wording for C6: the retained vertices (those
referenced by some face) in their original relative order. -/
def retainedInOrder (p : Polyhedron) : List Point :=
  (p.vertices.enum.filter (fun iv => (vertsInFaces p).contains iv.1)).map
    (fun iv => iv.2)

/-- C7: `getInverseOperation` maps "d" and "g" to themselves, swaps "+" and
"-", and sends every other operation symbol to a distinct reversed tag: the
tag differs from the symbol itself, and distinct other symbols receive
distinct tags. -/
theorem getInverseOperation_spec :
    getInverseOperation "d" = "d" ∧ getInverseOperation "g" = "g" ∧
    getInverseOperation "+" = "-" ∧ getInverseOperation "-" = "+" ∧
    ∀ op : String, op ≠ "d" → op ≠ "g" → op ≠ "+" → op ≠ "-" →
      (getInverseOperation op = "~" ++ op ∧ getInverseOperation op ≠ op ∧
        ∀ op2 : String, op2 ≠ "d" → op2 ≠ "g" → op2 ≠ "+" → op2 ≠ "-" →
          getInverseOperation op = getInverseOperation op2 → op = op2) := by
  refine ⟨rfl, rfl, rfl, rfl, ?_⟩
  intro op h1 h2 h3 h4
  have hop : getInverseOperation op = "~" ++ op := by
    simp only [getInverseOperation, if_neg h1, if_neg h2, if_neg h3, if_neg h4]
  refine ⟨hop, ?_, ?_⟩
  · rw [hop]
    intro h
    have hl := congrArg String.length h
    rw [String.length_append] at hl
    have hone : ("~" : String).length = 1 := rfl
    omega
  · intro op2 g1 g2 g3 g4 heq
    have hop2 : getInverseOperation op2 = "~" ++ op2 := by
      simp only [getInverseOperation, if_neg g1, if_neg g2, if_neg g3, if_neg g4]
    rw [hop, hop2] at heq
    have hd := congrArg String.data heq
    simp only [String.data_append] at hd
    have hdata : op.data = op2.data := by
      simpa using hd
    exact String.ext hdata

/-- Witness for C7: the theorem applied at the concrete symbols "t" and
"t", discharging every hypothesis. -/
theorem getInverseOperation_spec_witness :
    getInverseOperation "t" = "~" ++ "t" :=
  (getInverseOperation_spec.2.2.2.2 "t" (by decide) (by decide) (by decide)
    (by decide)).1

/-- C10 evaluation: at the one-element array `[0]` and index `-1`, the
documented behavior (element at the index reduced modulo the length, here
`(-1) mod 1 = 0`, whose element is `some 0`) disagrees with the code, which
computes `mod (-1) 1 = 0 + 1 = 1` (the JS remainder of a negative multiple
of the length is `-0`, so the negative branch adds the full length) and
reads out of bounds, yielding `undefined` (`none`). -/
theorem getCyclic_bug :
    getCyclic [(0 : Nat)] (-1) = none ∧ (-1 : Int) % 1 = 0 := by
  constructor
  · rfl
  · decide

/-! Helper lemmas about JS-object association lists and folds. -/

theorem find?_and_of_imp {α : Type} {p q : α → Bool} {l : List α}
    (h : ∀ e ∈ l, p e = true → q e = true) :
    l.find? (fun e => p e && q e) = l.find? p := by
  induction l with
  | nil => rfl
  | cons a l ih =>
    by_cases hp : p a = true
    · have hq := h a (List.mem_cons_self a l) hp
      rw [List.find?_cons_of_pos _ (by simp [hp, hq]), List.find?_cons_of_pos _ hp]
    · rw [List.find?_cons_of_neg _ (by simp [hp]), List.find?_cons_of_neg _ (by simp [hp])]
      exact ih fun e he hpe => h e (List.mem_cons_of_mem _ he) hpe

theorem jsGet_append {β : Type} (a b : List (String × β)) (k : String) :
    jsGet (a ++ b) k = (jsGet a k).or (jsGet b k) := by
  unfold jsGet
  rw [List.find?_append, Option.map_or']

theorem jsGet_mapValues {β : Type} (g : String × β → String × β)
    (hg : ∀ e, (g e).1 = e.1) (l : List (String × β)) (k : String) :
    jsGet (l.map g) k = (l.find? (fun e => e.1 == k)).map (fun e => (g e).2) := by
  unfold jsGet
  rw [List.find?_map]
  have hpred : ((fun e : String × β => e.1 == k) ∘ g) =
      (fun e : String × β => e.1 == k) := by
    funext e
    simp [Function.comp, hg e]
  rw [hpred, Option.map_map]
  rfl

theorem find?_filter_key {β : Type} (a b : List (String × β)) (k : String)
    (ha : a.find? (fun e => e.1 == k) = none) :
    (b.filter (fun e => !(a.find? (fun e2 => e2.1 == e.1)).isSome)).find?
        (fun e => e.1 == k) =
      b.find? (fun e => e.1 == k) := by
  induction b with
  | nil => rfl
  | cons x b ih =>
    by_cases hx : x.1 = k
    · have hq : (a.find? (fun e2 => e2.1 == x.1)).isSome = false := by
        rw [hx, ha]
        rfl
      rw [List.filter_cons_of_pos (by rw [hq]; rfl)]
      rw [List.find?_cons_of_pos _ (by simp [hx]), List.find?_cons_of_pos _ (by simp [hx])]
    · by_cases hq : (a.find? (fun e2 => e2.1 == x.1)).isSome = true
      · rw [List.filter_cons_of_neg (by rw [hq]; simp)]
        rw [List.find?_cons_of_neg _ (by simp [hx])]
        exact ih
      · have hq' : (a.find? (fun e2 => e2.1 == x.1)).isSome = false := by
          revert hq
          cases (a.find? (fun e2 => e2.1 == x.1)).isSome <;> simp
        rw [List.filter_cons_of_pos (by rw [hq']; rfl)]
        rw [List.find?_cons_of_neg _ (by simp [hx]), List.find?_cons_of_neg _ (by simp [hx])]
        exact ih

theorem jsGet_jsMergeWith {β : Type} (comb : β → β → β) (a b : List (String × β))
    (k : String) :
    jsGet (jsMergeWith comb a b) k =
      match jsGet a k, jsGet b k with
      | some va, some vb => some (comb va vb)
      | some va, none => some va
      | none, x => x := by
  unfold jsMergeWith
  rw [jsGet_append]
  rw [jsGet_mapValues (fun e =>
      match jsGet b e.1 with
      | some v => (e.1, comb e.2 v)
      | none => e)
    (by
      intro e
      show (match jsGet b e.1 with
        | some v => (e.1, comb e.2 v)
        | none => e).1 = e.1
      cases jsGet b e.1 <;> rfl)]
  cases hfa : a.find? (fun e => e.1 == k) with
  | some e0 =>
    have he0 : e0.1 = k := by simpa using List.find?_some hfa
    have hja : jsGet a k = some e0.2 := by
      unfold jsGet
      rw [hfa]
      rfl
    rw [hja, Option.map_some', Option.or_some, he0]
    cases hfb : jsGet b k <;> simp [hfb]
  | none =>
    have hja : jsGet a k = none := by
      unfold jsGet
      rw [hfa]
      rfl
    rw [hja, Option.map_none', Option.none_or]
    have hfilt : jsGet
        (b.filter (fun e => !(a.find? (fun e2 => e2.1 == e.1)).isSome)) k =
        jsGet b k := by
      unfold jsGet
      rw [find?_filter_key a b k hfa]
    rw [hfilt]

theorem jsGet_ensureKey_self (r : Graph) (s : String) :
    jsGet (ensureKey r s) s = some ((jsGet r s).getD []) := by
  unfold ensureKey
  cases hf : r.find? (fun e => e.1 == s) with
  | some e0 =>
    have hja : jsGet r s = some e0.2 := by
      unfold jsGet
      rw [hf]
      rfl
    simp [hja]
  | none =>
    have hja : jsGet r s = none := by
      unfold jsGet
      rw [hf]
      rfl
    simp only [Option.isSome_none, Bool.false_eq_true, if_false, jsGet_append, hja,
      Option.none_or, Option.getD_none]
    unfold jsGet
    simp

theorem jsGet_ensureKey_ne (r : Graph) (s k : String) (h : k ≠ s) :
    jsGet (ensureKey r s) k = jsGet r k := by
  unfold ensureKey
  cases (r.find? (fun e => e.1 == s)).isSome
  · simp only [Bool.false_eq_true, if_false, jsGet_append]
    have hsing : jsGet [(s, ([] : OpMap))] k = none := by
      unfold jsGet
      simp [show (s == k) = false by simp [Ne.symm h]]
    rw [hsing, Option.or_none]
  · simp

theorem jsGet_modifyKey_self (r : Graph) (s : String) (f : OpMap → OpMap) :
    jsGet (modifyKey r s f) s = (jsGet r s).map f := by
  unfold modifyKey
  rw [jsGet_mapValues (fun e => if e.1 == s then (e.1, f e.2) else e)
    (by
      intro e
      by_cases h : (e.1 == s) = true <;> simp [h])]
  cases hf : r.find? (fun e => e.1 == s) with
  | none =>
    have hja : jsGet r s = none := by
      unfold jsGet
      rw [hf]
      rfl
    rw [hja]
    rfl
  | some e0 =>
    have he0 : e0.1 = s := by
      simpa using List.find?_some hf
    have hja : jsGet r s = some e0.2 := by
      unfold jsGet
      rw [hf]
      rfl
    rw [hja]
    simp [he0]

theorem jsGet_modifyKey_ne (r : Graph) (s k : String) (f : OpMap → OpMap)
    (h : k ≠ s) :
    jsGet (modifyKey r s f) k = jsGet r k := by
  unfold modifyKey
  rw [jsGet_mapValues (fun e => if e.1 == s then (e.1, f e.2) else e)
    (by
      intro e
      by_cases hh : (e.1 == s) = true <;> simp [hh])]
  cases hf : r.find? (fun e => e.1 == k) with
  | none =>
    have hja : jsGet r k = none := by
      unfold jsGet
      rw [hf]
      rfl
    rw [hja]
    rfl
  | some e0 =>
    have he0 : e0.1 = k := by
      simpa using List.find?_some hf
    have hja : jsGet r k = some e0.2 := by
      unfold jsGet
      rw [hf]
      rfl
    rw [hja]
    simp [he0, h]

theorem jsGet_ensureOp_self (ops : OpMap) (op : String) :
    jsGet (ensureOp ops op) op = some ((jsGet ops op).getD []) := by
  unfold ensureOp
  cases hf : ops.find? (fun e => e.1 == op) with
  | some e0 =>
    have hja : jsGet ops op = some e0.2 := by
      unfold jsGet
      rw [hf]
      rfl
    simp [hja]
  | none =>
    have hja : jsGet ops op = none := by
      unfold jsGet
      rw [hf]
      rfl
    simp only [Option.isSome_none, Bool.false_eq_true, if_false, jsGet_append, hja,
      Option.none_or, Option.getD_none]
    unfold jsGet
    simp

theorem jsGet_ensureOp_ne (ops : OpMap) (op k : String) (h : k ≠ op) :
    jsGet (ensureOp ops op) k = jsGet ops k := by
  unfold ensureOp
  cases (ops.find? (fun e => e.1 == op)).isSome
  · simp only [Bool.false_eq_true, if_false, jsGet_append]
    have hsing : jsGet [(op, ([] : List (Option String)))] k = none := by
      unfold jsGet
      simp [show (op == k) = false by simp [Ne.symm h]]
    rw [hsing, Option.or_none]
  · simp

theorem jsGet_pushOp_self (ops : OpMap) (op : String) (v : Option String) :
    jsGet (pushOp ops op v) op = (jsGet ops op).map (fun l => l ++ [v]) := by
  unfold pushOp
  rw [jsGet_mapValues (fun e => if e.1 == op then (e.1, e.2 ++ [v]) else e)
    (by
      intro e
      by_cases h : (e.1 == op) = true <;> simp [h])]
  cases hf : ops.find? (fun e => e.1 == op) with
  | none =>
    have hja : jsGet ops op = none := by
      unfold jsGet
      rw [hf]
      rfl
    rw [hja]
    rfl
  | some e0 =>
    have he0 : e0.1 = op := by
      simpa using List.find?_some hf
    have hja : jsGet ops op = some e0.2 := by
      unfold jsGet
      rw [hf]
      rfl
    rw [hja]
    simp [he0]

theorem jsGet_pushOp_ne (ops : OpMap) (op k : String) (v : Option String)
    (h : k ≠ op) :
    jsGet (pushOp ops op v) k = jsGet ops k := by
  unfold pushOp
  rw [jsGet_mapValues (fun e => if e.1 == op then (e.1, e.2 ++ [v]) else e)
    (by
      intro e
      by_cases hh : (e.1 == op) = true <;> simp [hh])]
  cases hf : ops.find? (fun e => e.1 == k) with
  | none =>
    have hja : jsGet ops k = none := by
      unfold jsGet
      rw [hf]
      rfl
    rw [hja]
    rfl
  | some e0 =>
    have he0 : e0.1 = k := by
      simpa using List.find?_some hf
    have hja : jsGet ops k = some e0.2 := by
      unfold jsGet
      rw [hf]
      rfl
    rw [hja]
    simp [he0, h]

theorem lookupEdges_ensureKey (r : Graph) (s u v : String) :
    lookupEdges (ensureKey r s) u v = lookupEdges r u v := by
  by_cases hu : u = s
  · subst hu
    unfold lookupEdges
    rw [jsGet_ensureKey_self]
    cases hr : jsGet r u with
    | none => simp [opGet, jsGet]
    | some ops => simp
  · unfold lookupEdges
    rw [jsGet_ensureKey_ne r s u hu]

theorem lookupEdges_ensureOpStep (r : Graph) (s rop u v : String) :
    lookupEdges (modifyKey r s (fun ops => ensureOp ops rop)) u v =
      lookupEdges r u v := by
  by_cases hu : u = s
  · subst hu
    unfold lookupEdges
    rw [jsGet_modifyKey_self]
    cases hr : jsGet r u with
    | none => simp
    | some ops =>
      simp only [Option.map_some', Option.getD_some]
      by_cases hv : v = rop
      · subst hv
        unfold opGet
        rw [jsGet_ensureOp_self]
        cases jsGet ops v <;> simp
      · unfold opGet
        rw [jsGet_ensureOp_ne ops rop v hv]
  · unfold lookupEdges
    rw [jsGet_modifyKey_ne r s u _ hu]

theorem lookupEdges_pushStep_mono (r : Graph) (s rop u v : String)
    (w x : Option String)
    (h : x ∈ lookupEdges r u v) :
    x ∈ lookupEdges (modifyKey r s (fun ops => pushOp ops rop w)) u v := by
  by_cases hu : u = s
  · subst hu
    unfold lookupEdges at h ⊢
    rw [jsGet_modifyKey_self]
    cases hr : jsGet r u with
    | none =>
      rw [hr] at h
      simp at h
    | some ops =>
      rw [hr] at h
      simp only [Option.map_some', Option.getD_some] at h ⊢
      by_cases hv : v = rop
      · subst hv
        unfold opGet at h ⊢
        rw [jsGet_pushOp_self]
        cases ho : jsGet ops v with
        | none =>
          rw [ho] at h
          simp at h
        | some l =>
          rw [ho] at h
          simp only [Option.getD_some] at h
          simp only [Option.map_some', Option.getD_some]
          exact List.mem_append_left _ h
      · unfold opGet at h ⊢
        rw [jsGet_pushOp_ne ops rop v w hv]
        exact h
  · unfold lookupEdges at h ⊢
    rw [jsGet_modifyKey_ne r s u _ hu]
    exact h

theorem lookupEdges_addInverseEdge_mono (r : Graph) (src op : String)
    (sink : Option String) (u v : String) (x : Option String)
    (h : x ∈ lookupEdges r u v) :
    x ∈ lookupEdges (addInverseEdge r src op sink) u v := by
  cases sink with
  | none => exact h
  | some s =>
    unfold addInverseEdge
    dsimp only
    by_cases hs : (s == "") = true
    · rw [if_pos hs]
      exact h
    · rw [if_neg hs]
      by_cases hsrc : (s == src) = true
      · rw [if_pos hsrc]
        rw [lookupEdges_ensureOpStep, lookupEdges_ensureKey]
        exact h
      · rw [if_neg hsrc]
        apply lookupEdges_pushStep_mono
        rw [lookupEdges_ensureOpStep, lookupEdges_ensureKey]
        exact h

theorem lookupEdges_addInverseEdge_self (r : Graph) (src op t : String)
    (hts : t ≠ src) (hte : t ≠ "") :
    some src ∈ lookupEdges (addInverseEdge r src op (some t))
      t (getInverseOperation op) := by
  unfold addInverseEdge
  dsimp only
  rw [if_neg (by simp [hte]), if_neg (by simp [hts])]
  unfold lookupEdges
  rw [jsGet_modifyKey_self, jsGet_modifyKey_self, jsGet_ensureKey_self]
  simp only [Option.map_some', Option.getD_some]
  unfold opGet
  rw [jsGet_pushOp_self, jsGet_ensureOp_self]
  simp only [Option.map_some', Option.getD_some]
  exact List.mem_append_right _ (List.mem_singleton_self _)

theorem foldl_preserves {σ α : Type} (step : σ → α → σ) (P : σ → Prop) :
    ∀ (L : List α) (s : σ), (∀ s a, a ∈ L → P s → P (step s a)) → P s →
      P (L.foldl step s) := by
  intro L
  induction L with
  | nil =>
    intro s _ h
    exact h
  | cons a L ih =>
    intro s hm h
    exact ih _ (fun s b hb => hm s b (List.mem_cons_of_mem _ hb))
      (hm s a (List.mem_cons_self _ _) h)

theorem foldl_establishes {σ α : Type} (step : σ → α → σ) (P : σ → Prop)
    (L : List α) (e : α) (he : e ∈ L) (mono : ∀ s a, P s → P (step s a))
    (est : ∀ s, P (step s e)) :
    ∀ init, P (L.foldl step init) := by
  induction L with
  | nil => cases he
  | cons a L ih =>
    intro init
    rcases List.mem_cons.mp he with heq | hmem
    · subst heq
      exact foldl_preserves step P L _ (fun s b _ => mono s b) (est init)
    · exact ih hmem (step init a)

theorem mem_lookupEdges_decomp (g : Graph) (s op : String) (x : Option String)
    (h : x ∈ lookupEdges g s op) :
    ∃ e1 ∈ g, e1.1 = s ∧ ∃ e2 ∈ e1.2, e2.1 = op ∧ x ∈ e2.2 := by
  unfold lookupEdges at h
  cases hg : jsGet g s with
  | none =>
    rw [hg] at h
    simp at h
  | some ops =>
    rw [hg] at h
    simp only [Option.map_some', Option.getD_some] at h
    unfold opGet at h
    cases ho : jsGet ops op with
    | none =>
      rw [ho] at h
      simp at h
    | some sinks =>
      rw [ho] at h
      simp only [Option.getD_some] at h
      unfold jsGet at hg ho
      rcases Option.map_eq_some'.mp hg with ⟨e1, hf1, hv1⟩
      rcases Option.map_eq_some'.mp ho with ⟨e2, hf2, hv2⟩
      refine ⟨e1, List.mem_of_find?_eq_some hf1, ?_, ?_⟩
      · simpa using List.find?_some hf1
      · refine ⟨e2, ?_, ?_, ?_⟩
        · rw [hv1]
          exact List.mem_of_find?_eq_some hf2
        · simpa using List.find?_some hf2
        · rw [hv2]
          exact h

theorem lookupEdges_graphMerge_left (a b : Graph) (u v : String)
    (x : Option String) (h : x ∈ lookupEdges a u v) :
    x ∈ lookupEdges (graphMerge a b) u v := by
  unfold graphMerge
  unfold lookupEdges at h ⊢
  rw [jsGet_jsMergeWith]
  cases ha : jsGet a u with
  | none =>
    rw [ha] at h
    simp at h
  | some ra =>
    rw [ha] at h
    simp only [Option.map_some', Option.getD_some] at h
    cases hb : jsGet b u with
    | none =>
      simp only [Option.map_some', Option.getD_some]
      exact h
    | some rb =>
      simp only [Option.map_some', Option.getD_some]
      unfold mergeOpMaps
      unfold opGet at h ⊢
      rw [jsGet_jsMergeWith]
      cases hra : jsGet ra v with
      | none =>
        rw [hra] at h
        simp at h
      | some la =>
        rw [hra] at h
        simp only [Option.getD_some] at h
        cases hrb : jsGet rb v with
        | none =>
          simp only [Option.getD_some]
          exact h
        | some lb =>
          simp only [Option.getD_some]
          exact List.mem_append_left _ h

theorem lookupEdges_graphMerge_right (a b : Graph) (u v : String)
    (x : Option String) (h : x ∈ lookupEdges b u v) :
    x ∈ lookupEdges (graphMerge a b) u v := by
  unfold graphMerge
  unfold lookupEdges at h ⊢
  rw [jsGet_jsMergeWith]
  cases hb : jsGet b u with
  | none =>
    rw [hb] at h
    simp at h
  | some rb =>
    rw [hb] at h
    simp only [Option.map_some', Option.getD_some] at h
    cases ha : jsGet a u with
    | none =>
      simp only [Option.map_some', Option.getD_some]
      exact h
    | some ra =>
      simp only [Option.map_some', Option.getD_some]
      unfold mergeOpMaps
      unfold opGet at h ⊢
      rw [jsGet_jsMergeWith]
      cases hrb : jsGet rb v with
      | none =>
        rw [hrb] at h
        simp at h
      | some lb =>
        rw [hrb] at h
        simp only [Option.getD_some] at h
        cases hra : jsGet ra v with
        | none =>
          simp only [Option.getD_some]
          exact h
        | some la =>
          simp only [Option.getD_some]
          exact List.mem_append_right _ h

/-- C1: for every edge (solid, operation) to a target declared in the base
transformation graph, the closure built by `makeBidirectional` contains the
inverse edge from the target back to the solid under the inverse operation
(unless the edge is a self-loop, for which no reverse edge is pushed, or
the declared target is the falsy empty string), and every declared forward
edge is retained.  Stated over an arbitrary base graph, hence in particular
over the merged base graph of relations.js. -/
theorem makeBidirectional_spec (g : Graph) (s t op : String)
    (hmem : some t ∈ lookupEdges g s op) :
    (t ≠ s → t ≠ "" →
      some s ∈ lookupEdges (makeBidirectional g) t (getInverseOperation op)) ∧
    some t ∈ lookupEdges (makeBidirectional g) s op := by
  constructor
  · intro hts hte
    obtain ⟨e1, he1g, he1key, e2, he2mem, he2key, htmem⟩ :=
      mem_lookupEdges_decomp g s op (some t) hmem
    have baseMono : ∀ (r : Graph) (src' op' : String) (sink : Option String),
        some s ∈ lookupEdges r t (getInverseOperation op) →
        some s ∈ lookupEdges (addInverseEdge r src' op' sink) t
          (getInverseOperation op) :=
      fun r src' op' sink h =>
        lookupEdges_addInverseEdge_mono r src' op' sink t _ (some s) h
    have hres : some s ∈ lookupEdges (makeBidirectionalResult g) t
        (getInverseOperation op) := by
      unfold makeBidirectionalResult
      refine foldl_establishes _
        (fun r => some s ∈ lookupEdges r t (getInverseOperation op)) g e1 he1g
        ?_ ?_ []
      · intro r e hp
        unfold addInverseEdges
        refine foldl_preserves _
          (fun r => some s ∈ lookupEdges r t (getInverseOperation op)) e.2 r ?_ hp
        intro r' e' _ hp'
        refine foldl_preserves _
          (fun r => some s ∈ lookupEdges r t (getInverseOperation op)) e'.2 r' ?_ hp'
        intro r'' sink _ hp''
        exact baseMono r'' e.1 e'.1 sink hp''
      · intro r
        unfold addInverseEdges
        refine foldl_establishes _
          (fun r => some s ∈ lookupEdges r t (getInverseOperation op)) e1.2 e2
          he2mem ?_ ?_ r
        · intro r' e' hp'
          refine foldl_preserves _
            (fun r => some s ∈ lookupEdges r t (getInverseOperation op)) e'.2 r' ?_ hp'
          intro r'' sink _ hp''
          exact baseMono r'' e1.1 e'.1 sink hp''
        · intro r'
          refine foldl_establishes _
            (fun r => some s ∈ lookupEdges r t (getInverseOperation op)) e2.2
            (some t) htmem ?_ ?_ r'
          · intro r'' sink hp''
            exact baseMono r'' e1.1 e2.1 sink hp''
          · intro r''
            rw [he1key, he2key]
            exact lookupEdges_addInverseEdge_self r'' s op t hts hte
    unfold makeBidirectional
    exact lookupEdges_graphMerge_left _ g t (getInverseOperation op) (some s) hres
  · unfold makeBidirectional
    exact lookupEdges_graphMerge_right _ g s op (some t) hmem

/-- Witness for C1: the theorem applied to a one-edge concrete graph. -/
theorem makeBidirectional_spec_witness :
    some "A4" ∈ lookupEdges (makeBidirectional [("A4", [("t", [some "tA4"])])])
      "tA4" (getInverseOperation "t") ∧
    some "tA4" ∈ lookupEdges (makeBidirectional [("A4", [("t", [some "tA4"])])])
      "A4" "t" := by
  have h := makeBidirectional_spec [("A4", [("t", [some "tA4"])])] "A4" "tA4" "t"
    (by decide)
  exact ⟨h.1 (by decide) (by decide), h.2⟩

/-- C2: when the closed transformation graph maps the (solid, operation)
pair to exactly one candidate, `getNextPolyhedron` returns that candidate
translated from Conway shorthand to its full name; when it maps the pair to
more than one candidate, `getNextPolyhedron` raises a fatal error instead
of choosing one. -/
theorem getNextPolyhedron_spec (g : Graph) (solid operation : String)
    (ops : OpMap) (next : List (Option String))
    (h1 : jsGet g (toConway solid) = some ops)
    (h2 : jsGet ops operation = some next) :
    (∀ c : String, next = [some c] →
      getNextPolyhedron g solid operation = .ok (some (fromConway c))) ∧
    (1 < next.length →
      getNextPolyhedron g solid operation =
        .error "Cannot deal with more than one possibility right now") := by
  constructor
  · rintro c rfl
    simp [getNextPolyhedron, h1, h2]
  · intro hlen
    simp only [getNextPolyhedron, h1, h2]
    rw [if_pos (by omega)]

/-- Witness for C2: the theorem applied to a one-edge concrete graph at
the tetrahedron and the rectify symbol. -/
theorem getNextPolyhedron_spec_witness :
    getNextPolyhedron [("T", [("r", [some "O"])])] "tetrahedron" "r" =
      .ok (some (fromConway "O")) :=
  (getNextPolyhedron_spec [("T", [("r", [some "O"])])] "tetrahedron" "r"
    [("r", [some "O"])] [some "O"] (by decide) (by decide)).1 "O" rfl

/-- C8: an APPLY_OPERATION request whose operation symbol is not one of the
known symbols of the dispatch map is a no-op: the reducer returns the state
unchanged and never raises. -/
theorem polyhedronReducer_unknownOperation (augment diminish gyrate : OpFn)
    (state : AppState) (operation name : String) (config : Config)
    (h1 : operation ≠ "+") (h2 : operation ≠ "-") (h3 : operation ≠ "g") :
    polyhedronReducer augment diminish gyrate state
      (.applyOperation operation name config) = state := by
  unfold polyhedronReducer operationsMap
  have e1 : (("+" : String) == operation) = false := by simp [Ne.symm h1]
  have e2 : (("-" : String) == operation) = false := by simp [Ne.symm h2]
  have e3 : (("g" : String) == operation) = false := by simp [Ne.symm h3]
  simp [List.find?, e1, e2, e3]

/-- Witness for C8: the theorem applied at the concrete unknown symbol "z"
with identity operations. -/
theorem polyhedronReducer_unknownOperation_witness :
    polyhedronReducer (fun p _ => p) (fun p _ => p) (fun p _ => p)
      ⟨"tetrahedron", tetrahedron⟩ (.applyOperation "z" "cube" none) =
      ⟨"tetrahedron", tetrahedron⟩ :=
  polyhedronReducer_unknownOperation (fun p _ => p) (fun p _ => p) (fun p _ => p)
    ⟨"tetrahedron", tetrahedron⟩ "z" "cube" none (by decide) (by decide) (by decide)

/-- C9: a SET_POLYHEDRON request for a name outside the canonical solid
catalog returns the state unchanged; for a catalog name the new state
holds that name and the catalog polyhedron loaded for it. -/
theorem polyhedronReducer_setPolyhedron (augment diminish gyrate : OpFn)
    (state : AppState) (name : String) :
    (isValidSolid name = false →
      polyhedronReducer augment diminish gyrate state (.setPolyhedron name) =
        state) ∧
    (isValidSolid name = true →
      polyhedronReducer augment diminish gyrate state (.setPolyhedron name) =
        ⟨name, polyhedronGet name⟩) := by
  constructor
  · intro h
    unfold polyhedronReducer
    dsimp only
    rw [if_neg (by rw [h]; simp)]
  · intro h
    unfold polyhedronReducer
    dsimp only
    rw [if_pos (by rw [h])]

/-- Witness for C9: the theorem applied at an invalid name and at the
catalog name "tetrahedron", discharging each hypothesis. -/
theorem polyhedronReducer_setPolyhedron_witness :
    polyhedronReducer (fun p _ => p) (fun p _ => p) (fun p _ => p)
      ⟨"x", tetrahedron⟩ (.setPolyhedron "not-a-solid") = ⟨"x", tetrahedron⟩ ∧
    polyhedronReducer (fun p _ => p) (fun p _ => p) (fun p _ => p)
      ⟨"x", tetrahedron⟩ (.setPolyhedron "tetrahedron") =
      ⟨"tetrahedron", polyhedronGet "tetrahedron"⟩ :=
  ⟨(polyhedronReducer_setPolyhedron (fun p _ => p) (fun p _ => p) (fun p _ => p)
      ⟨"x", tetrahedron⟩ "not-a-solid").1 (by decide),
    (polyhedronReducer_setPolyhedron (fun p _ => p) (fun p _ => p) (fun p _ => p)
      ⟨"x", tetrahedron⟩ "tetrahedron").2 (by decide)⟩

/-- The tolerance comparison decides approximate equality at `PRECISION`:
`ratWithin` is exactly `|x - y| < PRECISION`. -/
theorem ratWithin_iff (x y : ℚ) : ratWithin x y = true ↔ |x - y| < PRECISION := by
  have hdx : (0 : ℚ) < (x.den : ℚ) := by
    exact_mod_cast Nat.pos_of_ne_zero x.den_nz
  have hdy : (0 : ℚ) < (y.den : ℚ) := by
    exact_mod_cast Nat.pos_of_ne_zero y.den_nz
  have hD : (0 : ℚ) < (x.den : ℚ) * (y.den : ℚ) := mul_pos hdx hdy
  have key : x - y =
      ((x.num * (y.den : Int) - y.num * (x.den : Int) : Int) : ℚ) /
        ((x.den : ℚ) * (y.den : ℚ)) := by
    conv_lhs => rw [← Rat.num_div_den x, ← Rat.num_div_den y]
    rw [div_sub_div _ _ (ne_of_gt hdx) (ne_of_gt hdy)]
    push_cast
    ring_nf
  unfold ratWithin PRECISION
  rw [key, abs_div, abs_of_pos hD, decide_eq_true_eq,
    div_lt_div_iff₀ hD (by norm_num : (0 : ℚ) < 1000), one_mul]
  rw [show |((x.num * (y.den : Int) - y.num * (x.den : Int) : Int) : ℚ)| =
      (((x.num * (y.den : Int) - y.num * (x.den : Int)).natAbs : ℕ) : ℚ) by
    rw [← Int.cast_abs, Int.abs_eq_natAbs, Int.cast_natCast]]
  exact_mod_cast Iff.rfl

/-- Counterexample to C4: `octLike` is well-formed (faces valid with at
least 3 distinct vertices, contiguous indices, every edge in exactly two
faces), yet after `deduplicateVertices` merges its coincident vertices 1
and 3 the edge (0, 1) belongs to four faces, so the output violates the
invariants. -/
theorem deduplicateVertices_invariants_cex :
    wellFormed octLike ∧ ¬ wellFormed (deduplicateVertices octLike) ∧
    edgeCount (deduplicateVertices octLike) 0 1 = 4 := by
  decide

/-- Counterexample to C5: in `squarePyramid` the apex (vertex 4, position
(0, 0, 2), shared by no other vertex) has 4 adjacent faces, yet
`duplicateVertices` creates only 3 duplicates of it — the code uses the
adjacent-face count of the FIRST vertex for every vertex, refuting "k
duplicate vertices for each original vertex with k adjacent faces". -/
theorem duplicateVertices_count_cex :
    (adjacentFaces squarePyramid 4).length = 4 ∧
    List.count ((0 : ℚ), (0 : ℚ), (2 : ℚ))
        (duplicateVertices squarePyramid none).vertices ≠
      (adjacentFaces squarePyramid 4).length := by
  decide

/-- Counterexample to C6: on `unrefFirst` (vertex 0 unreferenced, vertices
1, 2, 3 retained) `removeExtraneousVertices` returns the vertex list
[v3, v1, v2], not the retained vertices in their original relative order
[v1, v2, v3]: swapping the trailing vertex into the freed slot 0 moves it
in front of the other retained vertices. -/
theorem removeExtraneousVertices_order_cex :
    (removeExtraneousVertices unrefFirst).vertices ≠ retainedInOrder unrefFirst ∧
    (removeExtraneousVertices unrefFirst).vertices =
      [(0, 0, 1), (1, 0, 0), (0, 1, 0)] ∧
    retainedInOrder unrefFirst = [(1, 0, 0), (0, 1, 0), (0, 0, 1)] := by
  decide

/-! Generic list helpers for the index-swapping analysis of
`removeExtraneousVertices`. -/

theorem length_filter_not_add {α : Type} (l : List α) (q : α → Bool) :
    (l.filter (fun x => !(q x))).length + (l.filter q).length = l.length := by
  induction l with
  | nil => rfl
  | cons a l ih =>
    by_cases hq : q a = true
    · rw [List.filter_cons_of_neg (by simp [hq]), List.filter_cons_of_pos hq]
      simp only [List.length_cons]
      omega
    · rw [List.filter_cons_of_pos (by simp [hq]), List.filter_cons_of_neg (by simp [hq])]
      simp only [List.length_cons]
      omega

theorem filter_range_ge (n k : Nat) :
    (List.range n).filter (fun x => decide (k ≤ x)) = (List.range n).drop k := by
  induction n with
  | zero => simp
  | succ n ih =>
    rw [List.range_succ, List.filter_append, ih]
    by_cases hk : k ≤ n
    · rw [List.drop_append_of_le_length (by simp [hk])]
      simp [hk]
    · have h1 : (List.range n).drop k = [] :=
        List.drop_eq_nil_of_le (by simp; omega)
      have h2 : (List.range (n + 1)).drop k = [] :=
        List.drop_eq_nil_of_le (by simp; omega)
      rw [List.range_succ] at h2
      rw [h1, h2]
      simp [hk]

theorem sorted_take_filter_lt (l : List Nat) (c : Nat) (h : l.Pairwise (· < ·)) :
    l.take ((l.filter (fun x => decide (x < c))).length) =
      l.filter (fun x => decide (x < c)) := by
  induction l with
  | nil => rfl
  | cons a l ih =>
    have ha : ∀ b ∈ l, a < b := fun b hb => List.rel_of_pairwise_cons h hb
    have hl : l.Pairwise (· < ·) := h.of_cons
    by_cases hc : a < c
    · rw [List.filter_cons_of_pos (by simp [hc])]
      simp only [List.length_cons, List.take_succ_cons]
      rw [ih hl]
    · have hnil : l.filter (fun x => decide (x < c)) = [] := by
        rw [List.filter_eq_nil_iff]
        intro b hb
        have := ha b hb
        simp only [decide_eq_true_eq]
        omega
      rw [List.filter_cons_of_neg (by simp [hc]), hnil]
      rfl

theorem zip_take_right {α β : Type} (a : List α) (b : List β) :
    a.zip b = a.zip (b.take a.length) := by
  induction a generalizing b with
  | nil => rfl
  | cons x a ih =>
    cases b with
    | nil => rfl
    | cons y b =>
      simp only [List.zip_cons_cons, List.length_cons, List.take_succ_cons]
      rw [← ih b]

theorem zip_take_left {α β : Type} (a : List α) (b : List β) :
    a.zip b = (a.take b.length).zip b := by
  induction a generalizing b with
  | nil => simp
  | cons x a ih =>
    cases b with
    | nil => rfl
    | cons y b =>
      simp only [List.zip_cons_cons, List.length_cons, List.take_succ_cons]
      rw [← ih b]

theorem zip_map_swap {α β : Type} (a : List α) (b : List β) :
    (a.zip b).map (fun q => (q.2, q.1)) = b.zip a := by
  induction a generalizing b with
  | nil => simp
  | cons x a ih =>
    cases b with
    | nil => rfl
    | cons y b =>
      simp only [List.zip_cons_cons, List.map_cons]
      rw [ih b]

theorem agetD_of_no_key (l : List (Nat × Nat)) (k : Nat)
    (h : ∀ pr ∈ l, pr.1 ≠ k) : agetD l k = k := by
  unfold agetD
  rw [List.find?_eq_none.mpr (by
    intro pr hpr
    simp [h pr hpr])]

theorem agetD_zip_pair (ks vs : List Nat) (hk : ks.Nodup) (pr : Nat × Nat)
    (hpr : pr ∈ ks.zip vs) : agetD (ks.zip vs) pr.1 = pr.2 := by
  induction ks generalizing vs with
  | nil => cases hpr
  | cons k0 ks ih =>
    cases vs with
    | nil => cases hpr
    | cons v0 vs =>
      rw [List.zip_cons_cons] at hpr ⊢
      rcases List.mem_cons.mp hpr with heq | hmem
      · subst heq
        unfold agetD
        rw [List.find?_cons_of_pos _ (by simp)]
      · have h1 : pr.1 ∈ ks := by
          have h2 : (pr.1, pr.2) ∈ ks.zip vs := by
            simpa using hmem
          exact (List.of_mem_zip h2).1
        have hne : pr.1 ≠ k0 := by
          intro heq
          exact (List.nodup_cons.mp hk).1 (heq ▸ h1)
        unfold agetD
        rw [List.find?_cons_of_neg _ (by simp [Ne.symm hne])]
        exact ih vs (List.nodup_cons.mp hk).2 hmem

theorem zip_exists_of_mem_keys {ks vs : List Nat} (hlen : ks.length ≤ vs.length)
    (x : Nat) (hx : x ∈ ks) : ∃ v, (x, v) ∈ ks.zip vs := by
  induction ks generalizing vs with
  | nil => cases hx
  | cons k0 ks ih =>
    cases vs with
    | nil => simp at hlen
    | cons v0 vs =>
      rcases List.mem_cons.mp hx with heq | hmem
      · exact ⟨v0, by simp [heq]⟩
      · rcases ih (by simpa using Nat.le_of_succ_le_succ hlen) hmem with ⟨v, hv⟩
        exact ⟨v, by simp [hv]⟩

theorem zip_exists_of_mem_vals {ks vs : List Nat} (hlen : vs.length ≤ ks.length)
    (v : Nat) (hv : v ∈ vs) : ∃ k, (k, v) ∈ ks.zip vs := by
  induction vs generalizing ks with
  | nil => cases hv
  | cons v0 vs ih =>
    cases ks with
    | nil => simp at hlen
    | cons k0 ks =>
      rcases List.mem_cons.mp hv with heq | hmem
      · exact ⟨k0, by simp [heq]⟩
      · rcases ih (by simpa using Nat.le_of_succ_le_succ hlen) hmem with ⟨k, hk⟩
        exact ⟨k, by simp [hk]⟩

theorem zip_val_inj {ks vs : List Nat} (hv : vs.Nodup) (pr1 pr2 : Nat × Nat)
    (h1 : pr1 ∈ ks.zip vs) (h2 : pr2 ∈ ks.zip vs) (he : pr1.2 = pr2.2) :
    pr1 = pr2 := by
  induction ks generalizing vs with
  | nil => cases h1
  | cons k0 ks ih =>
    cases vs with
    | nil => cases h1
    | cons v0 vs =>
      rw [List.zip_cons_cons] at h1 h2
      rcases List.mem_cons.mp h1 with e1 | m1 <;>
        rcases List.mem_cons.mp h2 with e2 | m2
      · exact e1.trans e2.symm
      · exfalso
        have hm2 : (pr2.1, pr2.2) ∈ ks.zip vs := by simpa using m2
        have : pr2.2 ∈ vs := (List.of_mem_zip hm2).2
        rw [← he, e1] at this
        exact (List.nodup_cons.mp hv).1 this
      · exfalso
        have hm1 : (pr1.1, pr1.2) ∈ ks.zip vs := by simpa using m1
        have : pr1.2 ∈ vs := (List.of_mem_zip hm1).2
        rw [he, e2] at this
        exact (List.nodup_cons.mp hv).1 this
      · exact ih (List.nodup_cons.mp hv).2 m1 m2

theorem getD_range_map {α : Type} [Inhabited α] (l : List α) :
    (List.range l.length).map (fun i => l.getD i default) = l := by
  apply List.ext_getElem
  · simp
  · intro i h1 h2
    simp [List.getElem?_eq_getElem h2]

theorem mem_toRemove (p : Polyhedron) (i : Nat) :
    i ∈ toRemove p ↔ i < p.vertices.length ∧ i ∉ vertsInFaces p := by
  unfold toRemove
  simp [List.mem_filter]

theorem toRemove_sorted (p : Polyhedron) : (toRemove p).Pairwise (· < ·) :=
  (List.pairwise_lt_range _).filter _

theorem toRemove_nodup (p : Polyhedron) : (toRemove p).Nodup :=
  (toRemove_sorted p).imp (fun h => Nat.ne_of_lt h)

theorem toRemove_length_le (p : Polyhedron) :
    (toRemove p).length ≤ p.vertices.length := by
  have h := List.length_filter_le
    (fun i => !(vertsInFaces p).contains i) (List.range p.vertices.length)
  unfold toRemove
  simpa using h

theorem mem_lastKept (p : Polyhedron) (x : Nat) :
    x ∈ lastKept p ↔
      p.vertices.length - (toRemove p).length ≤ x ∧ x < p.vertices.length ∧
        x ∈ vertsInFaces p := by
  unfold lastKept
  rw [← filter_range_ge]
  simp only [List.mem_filter, List.mem_range, decide_eq_true_eq]
  constructor
  · rintro ⟨⟨hx, hc⟩, hT⟩
    have hT2 : x ∉ toRemove p := by simpa using hT
    refine ⟨hc, hx, ?_⟩
    by_contra hv
    exact hT2 ((mem_toRemove p x).mpr ⟨hx, hv⟩)
  · rintro ⟨hc, hx, hv⟩
    refine ⟨⟨hx, hc⟩, ?_⟩
    simp [mem_toRemove, hv]

theorem lastKept_nodup (p : Polyhedron) : (lastKept p).Nodup := by
  unfold lastKept
  exact List.Nodup.sublist
    ((List.filter_sublist _).trans (List.drop_sublist _ _)) (List.nodup_range _)

theorem length_lastKept (p : Polyhedron) :
    (lastKept p).length =
      ((toRemove p).filter
        (fun x => decide (x < p.vertices.length - (toRemove p).length))).length := by
  set n := p.vertices.length with hn
  set m := (toRemove p).length with hm
  set c := n - m with hc
  have hmn : m ≤ n := toRemove_length_le p
  have hpart1 := length_filter_not_add ((List.range n).drop c)
    (fun i => (toRemove p).contains i)
  have htail_len : ((List.range n).drop c).length = m := by
    simp only [List.length_drop, List.length_range]
    omega
  have heq : ((List.range n).drop c).filter (fun i => (toRemove p).contains i) =
      (toRemove p).filter (fun x => decide (c ≤ x)) := by
    rw [← filter_range_ge]
    conv_rhs => rw [toRemove]
    rw [List.filter_filter, List.filter_filter]
    apply List.filter_congr
    intro x hx
    have hxn : x < n := List.mem_range.mp hx
    by_cases hv : x ∈ vertsInFaces p <;> by_cases hcx : c ≤ x <;>
      simp [mem_toRemove, hv, hcx, hxn]
  have hpart2 : ((toRemove p).filter (fun x => decide (x < c))).length +
      ((toRemove p).filter (fun x => decide (c ≤ x))).length = m := by
    have hgen := length_filter_not_add (toRemove p) (fun x => decide (c ≤ x))
    rw [show (toRemove p).filter (fun x => !(decide (c ≤ x))) =
        (toRemove p).filter (fun x => decide (x < c)) from
      List.filter_congr (by
        intro x _
        by_cases hcx : c ≤ x
        · simp [hcx, Nat.not_lt.mpr hcx]
        · simp [hcx, Nat.lt_of_not_le hcx])] at hgen
    exact hgen
  have hlast : (lastKept p).length +
      (((List.range n).drop c).filter (fun i => (toRemove p).contains i)).length =
      m := by
    rw [← htail_len]
    unfold lastKept
    exact hpart1
  rw [heq] at hlast
  omega

theorem holes_eq (p : Polyhedron) :
    (toRemove p).take (lastKept p).length =
      (toRemove p).filter
        (fun x => decide (x < p.vertices.length - (toRemove p).length)) := by
  rw [length_lastKept]
  exact sorted_take_filter_lt _ _ (toRemove_sorted p)

theorem mem_holes (p : Polyhedron) (x : Nat) :
    x ∈ (toRemove p).take (lastKept p).length ↔
      x ∈ toRemove p ∧ x < p.vertices.length - (toRemove p).length := by
  rw [holes_eq]
  simp [List.mem_filter]

theorem holes_nodup (p : Polyhedron) :
    ((toRemove p).take (lastKept p).length).Nodup :=
  List.Nodup.sublist (List.take_sublist _ _) (toRemove_nodup p)

theorem holes_length (p : Polyhedron) :
    ((toRemove p).take (lastKept p).length).length = (lastKept p).length := by
  rw [List.length_take]
  have h1 : (lastKept p).length ≤ (toRemove p).length := by
    rw [length_lastKept]
    exact List.length_filter_le _ _
  omega

theorem newToOld_eq (p : Polyhedron) :
    newToOld p = (lastKept p).zip ((toRemove p).take (lastKept p).length) := by
  unfold newToOld
  exact zip_take_right _ _

theorem oldToNew_eq (p : Polyhedron) :
    oldToNew p = ((toRemove p).take (lastKept p).length).zip (lastKept p) := by
  unfold oldToNew newToOld
  rw [zip_map_swap]
  exact zip_take_left _ _

theorem agetD_newToOld_not_kept (p : Polyhedron) (x : Nat)
    (hx : x ∉ lastKept p) : agetD (newToOld p) x = x := by
  apply agetD_of_no_key
  intro pr hpr heq
  rw [newToOld_eq] at hpr
  have hk : pr.1 ∈ lastKept p := by
    have h2 : (pr.1, pr.2) ∈ (lastKept p).zip
        ((toRemove p).take (lastKept p).length) := by simpa using hpr
    exact (List.of_mem_zip h2).1
  exact hx (heq ▸ hk)

theorem agetD_newToOld_pair (p : Polyhedron) (pr : Nat × Nat)
    (hpr : pr ∈ newToOld p) : agetD (newToOld p) pr.1 = pr.2 := by
  unfold newToOld at hpr ⊢
  exact agetD_zip_pair _ _ (lastKept_nodup p) pr hpr

theorem kept_maps_to_hole (p : Polyhedron) (x : Nat) (hx : x ∈ lastKept p) :
    agetD (newToOld p) x ∈ toRemove p ∧
    agetD (newToOld p) x < p.vertices.length - (toRemove p).length ∧
    (x, agetD (newToOld p) x) ∈ newToOld p := by
  rcases zip_exists_of_mem_keys (le_of_eq (holes_length p).symm) x hx with ⟨v, hv⟩
  have hpr : (x, v) ∈ newToOld p := by
    rw [newToOld_eq]
    exact hv
  have hval : agetD (newToOld p) x = v := agetD_newToOld_pair p (x, v) hpr
  have hvh : v ∈ (toRemove p).take (lastKept p).length := (List.of_mem_zip hv).2
  have hprops := (mem_holes p v).mp hvh
  refine ⟨?_, ?_, ?_⟩
  · rw [hval]
    exact hprops.1
  · rw [hval]
    exact hprops.2
  · rw [hval]
    exact hpr

theorem agetD_oldToNew_not_hole (p : Polyhedron) (j : Nat)
    (hj : j ∉ (toRemove p).take (lastKept p).length) :
    agetD (oldToNew p) j = j := by
  apply agetD_of_no_key
  intro pr hpr heq
  rw [oldToNew_eq] at hpr
  have hk : pr.1 ∈ (toRemove p).take (lastKept p).length := by
    have h2 : (pr.1, pr.2) ∈ ((toRemove p).take (lastKept p).length).zip
        (lastKept p) := by simpa using hpr
    exact (List.of_mem_zip h2).1
  exact hj (heq ▸ hk)

theorem agetD_oldToNew_pair (p : Polyhedron) (pr : Nat × Nat)
    (hpr : pr ∈ oldToNew p) : agetD (oldToNew p) pr.1 = pr.2 := by
  rw [oldToNew_eq] at hpr ⊢
  exact agetD_zip_pair _ _ (holes_nodup p) pr hpr

theorem hole_maps_to_kept (p : Polyhedron) (j : Nat)
    (hj : j ∈ (toRemove p).take (lastKept p).length) :
    agetD (oldToNew p) j ∈ lastKept p ∧ (j, agetD (oldToNew p) j) ∈ oldToNew p := by
  rcases zip_exists_of_mem_keys (le_of_eq (holes_length p)) j hj with ⟨v, hv⟩
  have hpr : (j, v) ∈ oldToNew p := by
    rw [oldToNew_eq]
    exact hv
  have hval : agetD (oldToNew p) j = v := agetD_oldToNew_pair p (j, v) hpr
  have hvk : v ∈ lastKept p := (List.of_mem_zip hv).2
  constructor
  · rw [hval]
    exact hvk
  · rw [hval]
    exact hpr

theorem relabel_lt (p : Polyhedron) (x : Nat) (hx : x < p.vertices.length)
    (hv : x ∈ vertsInFaces p) :
    agetD (newToOld p) x < p.vertices.length - (toRemove p).length := by
  by_cases hk : x ∈ lastKept p
  · exact (kept_maps_to_hole p x hk).2.1
  · rw [agetD_newToOld_not_kept p x hk]
    by_contra h
    push_neg at h
    exact hk ((mem_lastKept p x).mpr ⟨h, hx, hv⟩)

theorem relabel_inj (p : Polyhedron) (x y : Nat)
    (hx : x < p.vertices.length) (hvx : x ∈ vertsInFaces p)
    (hy : y < p.vertices.length) (hvy : y ∈ vertsInFaces p)
    (heq : agetD (newToOld p) x = agetD (newToOld p) y) : x = y := by
  by_cases hkx : x ∈ lastKept p <;> by_cases hky : y ∈ lastKept p
  · have h1 := (kept_maps_to_hole p x hkx).2.2
    have h2 := (kept_maps_to_hole p y hky).2.2
    have heq2 := heq
    rw [newToOld_eq] at h1 h2 heq2
    have hpair := zip_val_inj (holes_nodup p) _ _ h1 h2 (by simpa using heq2)
    simpa using congrArg Prod.fst hpair
  · exfalso
    have hrx := (kept_maps_to_hole p x hkx).1
    rw [agetD_newToOld_not_kept p y hky] at heq
    have hyT : y ∈ toRemove p := heq ▸ hrx
    exact ((mem_toRemove p y).mp hyT).2 hvy
  · exfalso
    have hry := (kept_maps_to_hole p y hky).1
    rw [agetD_newToOld_not_kept p x hkx] at heq
    have hxT : x ∈ toRemove p := heq ▸ hry
    exact ((mem_toRemove p x).mp hxT).2 hvx
  · rw [agetD_newToOld_not_kept p x hkx, agetD_newToOld_not_kept p y hky] at heq
    exact heq

theorem relabel_surj (p : Polyhedron) (j : Nat)
    (hj : j < p.vertices.length - (toRemove p).length) :
    ∃ x, x < p.vertices.length ∧ x ∈ vertsInFaces p ∧
      agetD (newToOld p) x = j := by
  by_cases hjh : j ∈ (toRemove p).take (lastKept p).length
  · rcases zip_exists_of_mem_vals (le_of_eq (holes_length p)) j hjh with ⟨x, hx⟩
    have hpr : (x, j) ∈ newToOld p := by
      rw [newToOld_eq]
      exact hx
    have hxK : x ∈ lastKept p := (List.of_mem_zip hx).1
    have hprops := (mem_lastKept p x).mp hxK
    exact ⟨x, hprops.2.1, hprops.2.2, agetD_newToOld_pair p (x, j) hpr⟩
  · have hmn := toRemove_length_le p
    have hjn : j < p.vertices.length := by omega
    have hjT : j ∉ toRemove p := fun h => hjh ((mem_holes p j).mpr ⟨h, hj⟩)
    have hjV : j ∈ vertsInFaces p := by
      by_contra hv
      exact hjT ((mem_toRemove p j).mpr ⟨hjn, hv⟩)
    refine ⟨j, hjn, hjV, ?_⟩
    apply agetD_newToOld_not_kept
    intro hk
    have := ((mem_lastKept p j).mp hk).1
    omega

theorem sigma_props (p : Polyhedron) (j : Nat)
    (hj : j < p.vertices.length - (toRemove p).length) :
    agetD (oldToNew p) j < p.vertices.length ∧
    agetD (oldToNew p) j ∈ vertsInFaces p := by
  by_cases hjh : j ∈ (toRemove p).take (lastKept p).length
  · have h := (hole_maps_to_kept p j hjh).1
    have hprops := (mem_lastKept p _).mp h
    exact ⟨hprops.2.1, hprops.2.2⟩
  · rw [agetD_oldToNew_not_hole p j hjh]
    have hmn := toRemove_length_le p
    have hjn : j < p.vertices.length := by omega
    have hjT : j ∉ toRemove p := fun h => hjh ((mem_holes p j).mpr ⟨h, hj⟩)
    have hjV : j ∈ vertsInFaces p := by
      by_contra hv
      exact hjT ((mem_toRemove p j).mpr ⟨hjn, hv⟩)
    exact ⟨hjn, hjV⟩

theorem sigma_inj (p : Polyhedron) (j1 j2 : Nat)
    (h1 : j1 < p.vertices.length - (toRemove p).length)
    (h2 : j2 < p.vertices.length - (toRemove p).length)
    (he : agetD (oldToNew p) j1 = agetD (oldToNew p) j2) : j1 = j2 := by
  by_cases hh1 : j1 ∈ (toRemove p).take (lastKept p).length <;>
    by_cases hh2 : j2 ∈ (toRemove p).take (lastKept p).length
  · have hp1 := (hole_maps_to_kept p j1 hh1).2
    have hp2 := (hole_maps_to_kept p j2 hh2).2
    have he2 := he
    rw [oldToNew_eq] at hp1 hp2 he2
    have hpair := zip_val_inj (lastKept_nodup p) _ _ hp1 hp2 (by simpa using he2)
    simpa using congrArg Prod.fst hpair
  · exfalso
    have hk := (hole_maps_to_kept p j1 hh1).1
    rw [he, agetD_oldToNew_not_hole p j2 hh2] at hk
    have := ((mem_lastKept p j2).mp hk).1
    omega
  · exfalso
    have hk := (hole_maps_to_kept p j2 hh2).1
    rw [← he, agetD_oldToNew_not_hole p j1 hh1] at hk
    have := ((mem_lastKept p j1).mp hk).1
    omega
  · rw [agetD_oldToNew_not_hole p j1 hh1, agetD_oldToNew_not_hole p j2 hh2] at he
    exact he

theorem rem_vertices_eq (p : Polyhedron) :
    (removeExtraneousVertices p).vertices =
      (List.range (p.vertices.length - (toRemove p).length)).map
        (fun j => p.vertices.getD (agetD (oldToNew p) j) default) := by
  unfold removeExtraneousVertices
  dsimp only
  rw [← List.map_take, List.take_range,
    Nat.min_eq_left (Nat.sub_le _ _)]

theorem rem_vertices_length (p : Polyhedron) :
    (removeExtraneousVertices p).vertices.length =
      p.vertices.length - (toRemove p).length := by
  rw [rem_vertices_eq]
  simp

theorem rem_faces_eq (p : Polyhedron) :
    (removeExtraneousVertices p).faces =
      p.faces.map (fun face => face.map (fun i => agetD (newToOld p) i)) := rfl

theorem mem_vertsInFaces (p : Polyhedron) (face : List Nat) (i : Nat)
    (hface : face ∈ p.faces) (hi : i ∈ face) : i ∈ vertsInFaces p :=
  List.mem_flatten.mpr ⟨face, hface, hi⟩

theorem rem_validFaces (p : Polyhedron) (hval : validFaces p) :
    validFaces (removeExtraneousVertices p) := by
  intro face' hface' i hi
  rw [rem_faces_eq] at hface'
  rcases List.mem_map.mp hface' with ⟨face, hface, rfl⟩
  rcases List.mem_map.mp hi with ⟨i0, hi0, rfl⟩
  rw [rem_vertices_length]
  exact relabel_lt p i0 (hval face hface i0 hi0)
    (mem_vertsInFaces p face i0 hface hi0)

theorem rem_facesGood (p : Polyhedron) (hval : validFaces p)
    (hgood : facesGood p) : facesGood (removeExtraneousVertices p) := by
  intro face' hface'
  rw [rem_faces_eq] at hface'
  rcases List.mem_map.mp hface' with ⟨face, hface, rfl⟩
  constructor
  · apply List.Nodup.map_on
    · intro x hx y hy hxy
      exact relabel_inj p x y (hval face hface x hx)
        (mem_vertsInFaces p face x hface hx) (hval face hface y hy)
        (mem_vertsInFaces p face y hface hy) hxy
    · exact (hgood face hface).1
  · rw [List.length_map]
    exact (hgood face hface).2

theorem rem_allReferenced (p : Polyhedron) (hval : validFaces p) :
    allReferenced (removeExtraneousVertices p) := by
  intro j hj
  rw [rem_vertices_length] at hj
  have hj2 := List.mem_range.mp hj
  rcases relabel_surj p j hj2 with ⟨x, hxn, hxv, hxr⟩
  rcases List.mem_flatten.mp hxv with ⟨face, hface, hxf⟩
  apply List.mem_flatten.mpr
  refine ⟨face.map (fun i => agetD (newToOld p) i), ?_, ?_⟩
  · rw [rem_faces_eq]
    exact List.mem_map_of_mem _ hface
  · rw [← hxr]
    exact List.mem_map_of_mem _ hxf

theorem cyclePairs_map {α β : Type} (f : α → β) (l : List α) :
    cyclePairs (l.map f) = (cyclePairs l).map (Prod.map f f) := by
  unfold cyclePairs
  rw [← List.map_take, ← List.map_drop, ← List.map_append, List.zip_map]

theorem mem_cyclePairs {α : Type} (q : α × α) (l : List α)
    (h : q ∈ cyclePairs l) : q.1 ∈ l ∧ q.2 ∈ l := by
  unfold cyclePairs at h
  have h2 : (q.1, q.2) ∈ l.zip (l.drop 1 ++ l.take 1) := by simpa using h
  have h3 := List.of_mem_zip h2
  refine ⟨h3.1, ?_⟩
  rcases List.mem_append.mp h3.2 with h4 | h4
  · exact (List.drop_sublist _ _).subset h4
  · exact (List.take_sublist _ _).subset h4

theorem mem_allPairs_props (p : Polyhedron) (hval : validFaces p)
    (q : Nat × Nat) (hq : q ∈ p.faces.flatMap cyclePairs) :
    q.1 ∈ vertsInFaces p ∧ q.2 ∈ vertsInFaces p ∧
      q.1 < p.vertices.length ∧ q.2 < p.vertices.length := by
  rcases List.mem_flatMap.mp hq with ⟨face, hface, hqc⟩
  have hc := mem_cyclePairs q face hqc
  exact ⟨mem_vertsInFaces p face q.1 hface hc.1,
    mem_vertsInFaces p face q.2 hface hc.2,
    hval face hface q.1 hc.1, hval face hface q.2 hc.2⟩

theorem rem_allPairs (p : Polyhedron) :
    (removeExtraneousVertices p).faces.flatMap cyclePairs =
      (p.faces.flatMap cyclePairs).map
        (Prod.map (fun i => agetD (newToOld p) i) (fun i => agetD (newToOld p) i)) := by
  rw [rem_faces_eq, List.flatMap_map, List.map_flatMap]
  rw [show (fun face : List Nat =>
      cyclePairs (face.map (fun i => agetD (newToOld p) i))) = fun face =>
        (cyclePairs face).map
          (Prod.map (fun i => agetD (newToOld p) i) (fun i => agetD (newToOld p) i)) by
    funext face
    exact cyclePairs_map _ _]

theorem edgeCount_symm (p : Polyhedron) (a b : Nat) :
    edgeCount p a b = edgeCount p b a := by
  unfold edgeCount
  apply List.countP_congr
  intro q _
  constructor
  · intro h
    rcases Bool.or_eq_true_iff.mp h with h1 | h1
    · exact Bool.or_eq_true_iff.mpr (Or.inr h1)
    · exact Bool.or_eq_true_iff.mpr (Or.inl h1)
  · intro h
    rcases Bool.or_eq_true_iff.mp h with h1 | h1
    · exact Bool.or_eq_true_iff.mpr (Or.inr h1)
    · exact Bool.or_eq_true_iff.mpr (Or.inl h1)

theorem edgeCount_rem (p : Polyhedron) (hval : validFaces p) (a b : Nat)
    (han : a < p.vertices.length) (hav : a ∈ vertsInFaces p)
    (hbn : b < p.vertices.length) (hbv : b ∈ vertsInFaces p) :
    edgeCount (removeExtraneousVertices p)
      (agetD (newToOld p) a) (agetD (newToOld p) b) = edgeCount p a b := by
  unfold edgeCount
  rw [rem_allPairs, List.countP_map]
  apply List.countP_congr
  intro q hq
  have hprops := mem_allPairs_props p hval q hq
  simp only [Function.comp, Prod.map_fst, Prod.map_snd, Bool.or_eq_true,
    Bool.and_eq_true, beq_iff_eq]
  constructor
  · rintro (⟨h1, h2⟩ | ⟨h1, h2⟩)
    · exact Or.inl ⟨relabel_inj p q.1 a hprops.2.2.1 hprops.1 han hav h1,
        relabel_inj p q.2 b hprops.2.2.2 hprops.2.1 hbn hbv h2⟩
    · exact Or.inr ⟨relabel_inj p q.1 b hprops.2.2.1 hprops.1 hbn hbv h1,
        relabel_inj p q.2 a hprops.2.2.2 hprops.2.1 han hav h2⟩
  · rintro (⟨h1, h2⟩ | ⟨h1, h2⟩)
    · exact Or.inl ⟨by rw [h1], by rw [h2]⟩
    · exact Or.inr ⟨by rw [h1], by rw [h2]⟩

theorem rem_manifold (p : Polyhedron) (hval : validFaces p)
    (hman : manifold p) : manifold (removeExtraneousVertices p) := by
  intro a' ha' b' hb' hne
  have hne2 := hne
  unfold edgeCount at hne2
  rw [rem_allPairs, List.countP_map] at hne2
  rcases List.countP_pos_iff.mp (Nat.pos_of_ne_zero hne2) with ⟨q, hq, hpred⟩
  have hprops := mem_allPairs_props p hval q hq
  simp only [Function.comp, Prod.map_fst, Prod.map_snd, Bool.or_eq_true,
    Bool.and_eq_true, beq_iff_eq] at hpred
  rcases hpred with ⟨h1, h2⟩ | ⟨h1, h2⟩
  · have hc : edgeCount (removeExtraneousVertices p) a' b' = edgeCount p q.1 q.2 := by
      rw [← h1, ← h2]
      exact edgeCount_rem p hval q.1 q.2 hprops.2.2.1 hprops.1
        hprops.2.2.2 hprops.2.1
    rw [hc] at hne ⊢
    exact hman q.1 (List.mem_range.mpr hprops.2.2.1) q.2
      (List.mem_range.mpr hprops.2.2.2) hne
  · have hc : edgeCount (removeExtraneousVertices p) a' b' = edgeCount p q.2 q.1 := by
      rw [← h1, ← h2]
      exact edgeCount_rem p hval q.2 q.1 hprops.2.2.2 hprops.2.1
        hprops.2.2.1 hprops.1
    rw [hc] at hne ⊢
    exact hman q.2 (List.mem_range.mpr hprops.2.2.2) q.1
      (List.mem_range.mpr hprops.2.2.1) hne

theorem rem_pairwise (p : Polyhedron)
    (h : ∀ i1 i2 : Nat, i1 < p.vertices.length → i2 < p.vertices.length →
      i1 ≠ i2 → i1 ∈ vertsInFaces p → i2 ∈ vertsInFaces p →
      equalsWithTolerance (p.vertices.getD i1 default)
        (p.vertices.getD i2 default) = false) :
    (removeExtraneousVertices p).vertices.Pairwise
      (fun a b => equalsWithTolerance b a = false) := by
  rw [rem_vertices_eq, List.pairwise_map]
  apply List.Pairwise.imp_of_mem ?_ (List.pairwise_lt_range _)
  intro j1 j2 hm1 hm2 hlt
  have hj1 := List.mem_range.mp hm1
  have hj2 := List.mem_range.mp hm2
  have hp1 := sigma_props p j1 hj1
  have hp2 := sigma_props p j2 hj2
  exact h (agetD (oldToNew p) j2) (agetD (oldToNew p) j1) hp2.1 hp1.1
    (fun he => Nat.ne_of_lt hlt (sigma_inj p j2 j1 hj2 hj1 he).symm)
    hp2.2 hp1.2

theorem rem_identity (p : Polyhedron) (h : toRemove p = []) :
    removeExtraneousVertices p = p := by
  have hlk : lastKept p = [] := by
    unfold lastKept
    rw [h]
    simp only [List.length_nil, Nat.sub_zero]
    rw [List.drop_eq_nil_of_le (by simp)]
    rfl
  have hnto : newToOld p = [] := by
    unfold newToOld
    rw [hlk]
    rfl
  have hotn : oldToNew p = [] := by
    unfold oldToNew
    rw [hnto]
    rfl
  obtain ⟨vs, fs⟩ := p
  unfold removeExtraneousVertices
  rw [hotn, hnto, h]
  simp only [List.length_nil, Nat.sub_zero]
  congr 1
  · rw [show (fun i => List.getD vs (agetD [] i) default) =
        (fun i => List.getD vs i default) by
      funext i
      rfl]
    show ((List.range vs.length).map (fun i => vs.getD i default)).take vs.length = vs
    rw [getD_range_map, List.take_length]
  · rw [show (fun face : List Nat => face.map (fun i => agetD [] i)) =
        (fun face : List Nat => face.map id) by
      funext face
      rfl]
    simp

theorem ratWithin_symm (x y : ℚ) : ratWithin x y = ratWithin y x := by
  unfold ratWithin
  rw [show x.num * (y.den : Int) - y.num * (x.den : Int) =
      -(y.num * (x.den : Int) - x.num * (y.den : Int)) by ring]
  rw [Int.natAbs_neg, Nat.mul_comm x.den y.den]

theorem equalsWithTolerance_symm (a b : Point) :
    equalsWithTolerance a b = equalsWithTolerance b a := by
  unfold equalsWithTolerance
  rw [ratWithin_symm a.1 b.1, ratWithin_symm a.2.1 b.2.1, ratWithin_symm a.2.2 b.2.2]

theorem mem_enum_props (vs : List Point) (iv : Nat × Point) (hiv : iv ∈ vs.enum) :
    iv.1 < vs.length ∧ vs.getD iv.1 default = iv.2 := by
  have h := List.mem_enum_iff_getElem?.mp hiv
  rcases List.getElem?_eq_some.mp h with ⟨hlt, hget⟩
  refine ⟨hlt, ?_⟩
  rw [List.getD_eq_getElem?_getD, h]
  rfl

theorem dedupScanGo_grow (l : List (Nat × Point)) :
    ∀ (u : List (Point × Nat)) (a : List Nat),
      ∃ ext, (dedupScanGo l u a).1 = u ++ ext := by
  induction l with
  | nil => exact fun u a => ⟨[], by simp [dedupScanGo]⟩
  | cons iv rest ih =>
    intro u a
    unfold dedupScanGo
    cases hf : u.find? (fun pt => equalsWithTolerance iv.2 pt.1) with
    | none =>
      rcases ih (u ++ [(iv.2, iv.1)]) (a ++ [iv.1]) with ⟨ext, hext⟩
      exact ⟨(iv.2, iv.1) :: ext, by rw [hext]; simp⟩
    | some pt =>
      exact ih u (a ++ [pt.2])

theorem dedupScanGo_vals (l : List (Nat × Point)) :
    ∀ (u : List (Point × Nat)) (a : List Nat),
      (∀ x ∈ a, ∃ pt ∈ u, pt.2 = x) →
      ∀ x ∈ (dedupScanGo l u a).2, ∃ pt ∈ (dedupScanGo l u a).1, pt.2 = x := by
  induction l with
  | nil =>
    intro u a hu x hx
    exact hu x hx
  | cons iv rest ih =>
    intro u a hu x hx
    unfold dedupScanGo at hx ⊢
    cases hf : u.find? (fun pt => equalsWithTolerance iv.2 pt.1) with
    | none =>
      rw [hf] at hx
      refine ih (u ++ [(iv.2, iv.1)]) (a ++ [iv.1]) ?_ x hx
      intro y hy
      rcases List.mem_append.mp hy with hy1 | hy1
      · rcases hu y hy1 with ⟨pt, hpt, hpte⟩
        exact ⟨pt, List.mem_append_left _ hpt, hpte⟩
      · refine ⟨(iv.2, iv.1), List.mem_append_right _ (List.mem_singleton_self _), ?_⟩
        simpa using (List.mem_singleton.mp hy1).symm
    | some pt =>
      rw [hf] at hx
      refine ih u (a ++ [pt.2]) ?_ x hx
      intro y hy
      rcases List.mem_append.mp hy with hy1 | hy1
      · exact hu y hy1
      · exact ⟨pt, List.mem_of_find?_eq_some hf, (List.mem_singleton.mp hy1).symm⟩

theorem dedupScanGo_uok (vs : List Point) (l : List (Nat × Point)) :
    ∀ (u : List (Point × Nat)) (a : List Nat),
      (∀ iv ∈ l, iv.1 < vs.length ∧ vs.getD iv.1 default = iv.2) →
      (∀ pt ∈ u, pt.2 < vs.length ∧ vs.getD pt.2 default = pt.1) →
      ∀ pt ∈ (dedupScanGo l u a).1,
        pt.2 < vs.length ∧ vs.getD pt.2 default = pt.1 := by
  induction l with
  | nil =>
    intro u a _ hu pt hpt
    exact hu pt hpt
  | cons iv rest ih =>
    intro u a hl hu pt hpt
    unfold dedupScanGo at hpt
    cases hf : u.find? (fun pt => equalsWithTolerance iv.2 pt.1) with
    | none =>
      rw [hf] at hpt
      refine ih (u ++ [(iv.2, iv.1)]) (a ++ [iv.1])
        (fun jv hjv => hl jv (List.mem_cons_of_mem _ hjv)) ?_ pt hpt
      intro qt hqt
      rcases List.mem_append.mp hqt with hq1 | hq1
      · exact hu qt hq1
      · have he := List.mem_singleton.mp hq1
        have hiv := hl iv (List.mem_cons_self _ _)
        rw [he]
        exact ⟨hiv.1, hiv.2⟩
    | some pt0 =>
      rw [hf] at hpt
      exact ih u (a ++ [pt0.2])
        (fun jv hjv => hl jv (List.mem_cons_of_mem _ hjv)) hu pt hpt

theorem dedupScanGo_pairwise (l : List (Nat × Point)) :
    ∀ (u : List (Point × Nat)) (a : List Nat),
      u.Pairwise (fun pt qt => equalsWithTolerance qt.1 pt.1 = false) →
      (dedupScanGo l u a).1.Pairwise
        (fun pt qt => equalsWithTolerance qt.1 pt.1 = false) := by
  induction l with
  | nil =>
    intro u a hu
    exact hu
  | cons iv rest ih =>
    intro u a hu
    unfold dedupScanGo
    cases hf : u.find? (fun pt => equalsWithTolerance iv.2 pt.1) with
    | none =>
      refine ih (u ++ [(iv.2, iv.1)]) (a ++ [iv.1]) ?_
      rw [List.pairwise_append]
      refine ⟨hu, List.pairwise_singleton _ _, ?_⟩
      intro pt hpt qt hqt
      rw [List.mem_singleton.mp hqt]
      have := List.find?_eq_none.mp hf pt hpt
      simpa using this
    | some pt0 =>
      exact ih u (a ++ [pt0.2]) hu

theorem dedupScanGo_id (l : List Point) :
    ∀ (k : Nat) (u : List (Point × Nat)) (a : List Nat),
      (∀ pt ∈ u, ∀ v ∈ l, equalsWithTolerance v pt.1 = false) →
      l.Pairwise (fun v w => equalsWithTolerance w v = false) →
      (dedupScanGo (l.enumFrom k) u a).2 = a ++ List.range' k l.length := by
  induction l with
  | nil =>
    intro k u a _ _
    simp [dedupScanGo]
  | cons v l ih =>
    intro k u a hB hpw
    rw [List.enumFrom_cons]
    unfold dedupScanGo
    rw [List.find?_eq_none.mpr (by
      intro pt hpt
      simp [hB pt hpt v (List.mem_cons_self _ _)])]
    rw [ih (k + 1) (u ++ [(v, k)]) (a ++ [k]) ?_ hpw.of_cons]
    · rw [List.length_cons, List.range'_succ, List.append_assoc]
      rfl
    · intro pt hpt w hw
      rcases List.mem_append.mp hpt with hp1 | hp1
      · exact hB pt hp1 w (List.mem_cons_of_mem _ hw)
      · rw [List.mem_singleton.mp hp1]
        exact List.rel_of_pairwise_cons hpw hw

theorem uniqAux_subset (l : List Nat) :
    ∀ (seen : List Nat) (x : Nat), x ∈ uniqAux seen l → x ∈ l := by
  induction l with
  | nil =>
    intro seen x hx
    cases hx
  | cons a l ih =>
    intro seen x hx
    unfold uniqAux at hx
    by_cases ha : a ∈ seen
    · rw [if_pos ha] at hx
      exact List.mem_cons_of_mem _ (ih seen x hx)
    · rw [if_neg ha] at hx
      rcases List.mem_cons.mp hx with he | hm
      · rw [he]
        exact List.mem_cons_self _ _
      · exact List.mem_cons_of_mem _ (ih (a :: seen) x hm)

theorem uniqAux_nodup (l : List Nat) :
    ∀ seen : List Nat,
      (uniqAux seen l).Nodup ∧ ∀ x ∈ uniqAux seen l, x ∉ seen := by
  induction l with
  | nil =>
    intro seen
    exact ⟨List.nodup_nil, by intro x hx; cases hx⟩
  | cons a l ih =>
    intro seen
    unfold uniqAux
    by_cases ha : a ∈ seen
    · rw [if_pos ha]
      exact ih seen
    · rw [if_neg ha]
      rcases ih (a :: seen) with ⟨hnd, hni⟩
      refine ⟨List.nodup_cons.mpr ⟨?_, hnd⟩, ?_⟩
      · intro hmem
        exact hni a hmem (List.mem_cons_self _ _)
      · intro x hx
        rcases List.mem_cons.mp hx with he | hm
        · rw [he]
          exact ha
        · intro hxs
          exact hni x hm (List.mem_cons_of_mem _ hxs)

theorem uniq_nodup (l : List Nat) : (uniq l).Nodup :=
  (uniqAux_nodup l []).1

theorem uniq_subset (l : List Nat) : ∀ x ∈ uniq l, x ∈ l :=
  fun x hx => uniqAux_subset l [] x hx

theorem uniqAux_of_disjoint (l : List Nat) :
    ∀ seen : List Nat, l.Nodup → (∀ x ∈ l, x ∉ seen) → uniqAux seen l = l := by
  induction l with
  | nil =>
    intro seen _ _
    rfl
  | cons a l ih =>
    intro seen hnd hdisj
    unfold uniqAux
    rw [if_neg (hdisj a (List.mem_cons_self _ _))]
    rw [ih (a :: seen) (List.nodup_cons.mp hnd).2 ?_]
    intro x hx hmem
    rcases List.mem_cons.mp hmem with he | hm
    · exact (List.nodup_cons.mp hnd).1 (he ▸ hx)
    · exact hdisj x (List.mem_cons_of_mem _ hx) hm

theorem uniq_eq_self (l : List Nat) (h : l.Nodup) : uniq l = l :=
  uniqAux_of_disjoint l [] h (by intro x _ hx; cases hx)

theorem getD_range_self (n i : Nat) : (List.range n).getD i i = i := by
  by_cases h : i < n
  · rw [List.getD_eq_getElem _ _ (by simpa using h)]
    simp
  · rw [List.getD_eq_default _ _ (by simpa using h)]

theorem dedupScanGo_len (l : List (Nat × Point)) :
    ∀ (u : List (Point × Nat)) (a : List Nat),
      (dedupScanGo l u a).2.length = a.length + l.length := by
  induction l with
  | nil =>
    intro u a
    rfl
  | cons iv rest ih =>
    intro u a
    unfold dedupScanGo
    cases hf : u.find? (fun pt => equalsWithTolerance iv.2 pt.1) with
    | none =>
      rw [ih]
      simp only [List.length_append, List.length_cons, List.length_nil]
      omega
    | some pt =>
      rw [ih]
      simp only [List.length_append, List.length_cons, List.length_nil]
      omega

theorem dedupScan_length (vs : List Point) :
    (dedupScan vs).2.length = vs.length := by
  unfold dedupScan
  rw [dedupScanGo_len]
  simp

theorem dedupScan_val_props (vs : List Point) (x : Nat)
    (hx : x ∈ (dedupScan vs).2) :
    ∃ pt ∈ (dedupScan vs).1, pt.2 = x := by
  unfold dedupScan at hx ⊢
  exact dedupScanGo_vals vs.enum [] [] (by intro y hy; cases hy) x hx

theorem dedupScan_uok (vs : List Point) :
    ∀ pt ∈ (dedupScan vs).1, pt.2 < vs.length ∧ vs.getD pt.2 default = pt.1 := by
  intro pt hpt
  unfold dedupScan at hpt
  exact dedupScanGo_uok vs vs.enum [] []
    (fun iv hiv => mem_enum_props vs iv hiv) (by intro qt hqt; cases hqt) pt hpt

theorem dedupScan_pairwise (vs : List Point) :
    (dedupScan vs).1.Pairwise (fun pt qt => equalsWithTolerance qt.1 pt.1 = false) := by
  unfold dedupScan
  exact dedupScanGo_pairwise vs.enum [] [] List.Pairwise.nil

theorem dedupScan_val_lt (vs : List Point) (x : Nat)
    (hx : x ∈ (dedupScan vs).2) : x < vs.length := by
  rcases dedupScan_val_props vs x hx with ⟨pt, hpt, hpte⟩
  have := dedupScan_uok vs pt hpt
  omega

theorem dedupScan_distinct (vs : List Point) (i j : Nat)
    (hi : i ∈ (dedupScan vs).2) (hj : j ∈ (dedupScan vs).2) (hne : i ≠ j) :
    equalsWithTolerance (vs.getD i default) (vs.getD j default) = false := by
  rcases dedupScan_val_props vs i hi with ⟨pi, hpi, hpie⟩
  rcases dedupScan_val_props vs j hj with ⟨pj, hpj, hpje⟩
  have hui := dedupScan_uok vs pi hpi
  have huj := dedupScan_uok vs pj hpj
  have hpw2 : (dedupScan vs).1.Pairwise
      (fun pt qt => equalsWithTolerance qt.1 pt.1 = false ∧
        equalsWithTolerance pt.1 qt.1 = false) :=
    (dedupScan_pairwise vs).imp (fun h => ⟨h, by
      rw [equalsWithTolerance_symm]
      exact h⟩)
  have hsym : Symmetric (fun pt qt : Point × Nat =>
      equalsWithTolerance qt.1 pt.1 = false ∧
        equalsWithTolerance pt.1 qt.1 = false) := fun pt qt h => ⟨h.2, h.1⟩
  have hptne : pi ≠ pj := by
    intro he
    exact hne (by rw [← hpie, ← hpje, he])
  have hR := List.Pairwise.forall hsym hpw2 hpi hpj hptne
  rw [← hpie, ← hpje, hui.2, huj.2]
  exact hR.2

theorem dedupScan_id (vs : List Point)
    (h : vs.Pairwise (fun v w => equalsWithTolerance w v = false)) :
    (dedupScan vs).2 = List.range vs.length := by
  unfold dedupScan
  rw [show vs.enum = vs.enumFrom 0 from rfl]
  rw [dedupScanGo_id vs 0 [] [] (by intro pt hpt; cases hpt) h]
  rw [List.range_eq_range']
  rfl

theorem dedupFaces_props (p : Polyhedron) (hval : validFaces p) :
    ∀ face ∈ dedupFaces p,
      (∀ i ∈ face, i ∈ (dedupScan p.vertices).2 ∧ i < p.vertices.length) ∧
      face.Nodup ∧ 3 ≤ face.length := by
  intro face hface
  unfold dedupFaces at hface
  rcases List.mem_filter.mp hface with ⟨hmem, hlen⟩
  rcases List.mem_map.mp hmem with ⟨face0, hface0, rfl⟩
  refine ⟨?_, uniq_nodup _, by simpa using hlen⟩
  intro i hi
  have hi2 := uniq_subset _ i hi
  rcases List.mem_map.mp hi2 with ⟨i0, hi00, rfl⟩
  have hi0n : i0 < p.vertices.length := hval face0 hface0 i0 hi00
  have hlen2 : i0 < (dedupScan p.vertices).2.length := by
    rw [dedupScan_length]
    exact hi0n
  have hgd : (dedupScan p.vertices).2.getD i0 i0 = (dedupScan p.vertices).2[i0] :=
    List.getD_eq_getElem _ _ hlen2
  have hmem2 : (dedupScan p.vertices).2.getD i0 i0 ∈ (dedupScan p.vertices).2 := by
    rw [hgd]
    exact List.getElem_mem _
  exact ⟨hmem2, dedupScan_val_lt _ _ hmem2⟩

theorem rem_vertices_getD (p : Polyhedron) (j : Nat)
    (hj : j < p.vertices.length - (toRemove p).length) :
    (removeExtraneousVertices p).vertices.getD j default =
      p.vertices.getD (agetD (oldToNew p) j) default := by
  rw [rem_vertices_eq]
  rw [List.getD_eq_getElem _ _ (by simpa using hj)]
  simp

/-- C6 (amended): `removeExtraneousVertices` removes exactly the vertices
referenced by no face (the output has one slot per referenced vertex, and
`toRemove` is exactly the unreferenced index set); it reassigns indices by
swapping the RETAINED trailing vertices into the freed slots in order, not
by a full re-index: every retained vertex below the cut keeps its index,
and each `newToOld` pair moves a kept trailing vertex into a freed slot
below the cut, the faces being remapped through the same map.  The overall
relative order of the retained vertices is NOT generally preserved (see the
counterexample). -/
theorem removeExtraneousVertices_swap_spec (p : Polyhedron) :
    (removeExtraneousVertices p).vertices.length =
      p.vertices.length - (toRemove p).length ∧
    (∀ i ∈ toRemove p, i < p.vertices.length ∧ i ∉ vertsInFaces p) ∧
    (∀ i, i < p.vertices.length → i ∉ vertsInFaces p → i ∈ toRemove p) ∧
    (∀ i, i < p.vertices.length - (toRemove p).length → i ∉ toRemove p →
      (removeExtraneousVertices p).vertices.getD i default =
        p.vertices.getD i default) ∧
    (∀ pr ∈ newToOld p, pr.1 ∈ lastKept p ∧ pr.2 ∈ toRemove p ∧
      pr.2 < p.vertices.length - (toRemove p).length ∧
      (removeExtraneousVertices p).vertices.getD pr.2 default =
        p.vertices.getD pr.1 default) ∧
    (removeExtraneousVertices p).faces =
      p.faces.map (fun face => face.map (fun i => agetD (newToOld p) i)) := by
  refine ⟨rem_vertices_length p, ?_, ?_, ?_, ?_, rem_faces_eq p⟩
  · intro i hi
    exact (mem_toRemove p i).mp hi
  · intro i hn hv
    exact (mem_toRemove p i).mpr ⟨hn, hv⟩
  · intro i hi hT
    rw [rem_vertices_getD p i hi]
    rw [agetD_oldToNew_not_hole p i (fun hh => hT ((mem_holes p i).mp hh).1)]
  · intro pr hpr
    have hzip := hpr
    rw [newToOld_eq] at hzip
    have hz2 : (pr.1, pr.2) ∈ (lastKept p).zip
        ((toRemove p).take (lastKept p).length) := by simpa using hzip
    have hcomp := List.of_mem_zip hz2
    have hhole := (mem_holes p pr.2).mp hcomp.2
    refine ⟨hcomp.1, hhole.1, hhole.2, ?_⟩
    rw [rem_vertices_getD p pr.2 hhole.2]
    have hswap : (pr.2, pr.1) ∈ oldToNew p := by
      unfold oldToNew
      exact List.mem_map_of_mem _ hpr
    rw [show agetD (oldToNew p) pr.2 = pr.1 from agetD_oldToNew_pair p (pr.2, pr.1) hswap]

/-- C4 (amended): on a well-formed input, `removeExtraneousVertices`
preserves all the structural invariants (valid vertex indices, at least 3
distinct vertices per face, contiguous vertex indices, every edge in
exactly two faces), and `deduplicateVertices` guarantees valid indices, at
least 3 distinct vertices per face, and contiguous indices — but not the
two-faces-per-edge invariant (see the counterexample), and
`duplicateVertices` is not covered (it miscounts duplicates whenever some
vertex has a different face count than the first vertex; see C5). -/
theorem cleanup_invariants (p : Polyhedron) (h : wellFormed p) :
    (validFaces (removeExtraneousVertices p) ∧
      facesGood (removeExtraneousVertices p) ∧
      allReferenced (removeExtraneousVertices p) ∧
      manifold (removeExtraneousVertices p)) ∧
    (validFaces (deduplicateVertices p) ∧
      facesGood (deduplicateVertices p) ∧
      allReferenced (deduplicateVertices p)) := by
  obtain ⟨hval, hgood, _href, hman⟩ := h
  constructor
  · exact ⟨rem_validFaces p hval, rem_facesGood p hval hgood,
      rem_allReferenced p hval, rem_manifold p hval hman⟩
  · have hqval : validFaces (⟨p.vertices, dedupFaces p⟩ : Polyhedron) := by
      intro face hface i hi
      exact ((dedupFaces_props p hval face hface).1 i hi).2
    have hqgood : facesGood (⟨p.vertices, dedupFaces p⟩ : Polyhedron) := by
      intro face hface
      exact (dedupFaces_props p hval face hface).2
    exact ⟨rem_validFaces _ hqval, rem_facesGood _ hqval hqgood,
      rem_allReferenced _ hqval⟩

/-- Witness for the amended C4: the theorem applied to the concrete
tetrahedron, whose well-formedness is decided. -/
theorem cleanup_invariants_witness :
    validFaces (removeExtraneousVertices tetrahedron) ∧
    manifold (removeExtraneousVertices tetrahedron) ∧
    validFaces (deduplicateVertices tetrahedron) :=
  ⟨(cleanup_invariants tetrahedron (by decide)).1.1,
    (cleanup_invariants tetrahedron (by decide)).1.2.2.2,
    (cleanup_invariants tetrahedron (by decide)).2.1⟩

/-- C3: `deduplicateVertices` is idempotent on well-formed polyhedra:
after one pass the remaining vertex positions are pairwise farther than
the tolerance apart and every vertex is referenced, so a second pass maps
every vertex to itself, leaves every (already duplicate-free, length at
least 3) face unchanged, and removes nothing. -/
theorem deduplicateVertices_idem (p : Polyhedron) (h : wellFormed p) :
    deduplicateVertices (deduplicateVertices p) = deduplicateVertices p := by
  obtain ⟨hval, hgood, _href, _hman⟩ := h
  have hqval : validFaces (⟨p.vertices, dedupFaces p⟩ : Polyhedron) := by
    intro face hface i hi
    exact ((dedupFaces_props p hval face hface).1 i hi).2
  have hqgood : facesGood (⟨p.vertices, dedupFaces p⟩ : Polyhedron) := by
    intro face hface
    exact (dedupFaces_props p hval face hface).2
  set q : Polyhedron := ⟨p.vertices, dedupFaces p⟩ with hq
  have hdedup : deduplicateVertices p = removeExtraneousVertices q := rfl
  set p2 := removeExtraneousVertices q with hp2
  have hp2good : facesGood p2 := rem_facesGood q hqval hqgood
  have hp2ref : allReferenced p2 := rem_allReferenced q hqval
  have hqdist : ∀ i1 i2 : Nat, i1 < q.vertices.length → i2 < q.vertices.length →
      i1 ≠ i2 → i1 ∈ vertsInFaces q → i2 ∈ vertsInFaces q →
      equalsWithTolerance (q.vertices.getD i1 default)
        (q.vertices.getD i2 default) = false := by
    intro i1 i2 _ _ hne hv1 hv2
    have hm1 : i1 ∈ (dedupScan p.vertices).2 := by
      rcases List.mem_flatten.mp hv1 with ⟨face, hface, hi⟩
      exact ((dedupFaces_props p hval face hface).1 i1 hi).1
    have hm2 : i2 ∈ (dedupScan p.vertices).2 := by
      rcases List.mem_flatten.mp hv2 with ⟨face, hface, hi⟩
      exact ((dedupFaces_props p hval face hface).1 i2 hi).1
    exact dedupScan_distinct p.vertices i1 i2 hm1 hm2 hne
  have hp2pw : p2.vertices.Pairwise
      (fun a b => equalsWithTolerance b a = false) := rem_pairwise q hqdist
  have hscan2 : (dedupScan p2.vertices).2 = List.range p2.vertices.length :=
    dedupScan_id _ hp2pw
  have hfaces2 : dedupFaces p2 = p2.faces := by
    unfold dedupFaces
    have hpt : ∀ face ∈ p2.faces,
        uniq (face.map (fun i => ((dedupScan p2.vertices).2).getD i i)) = face := by
      intro face hface
      rw [hscan2]
      rw [List.map_congr_left (fun i _ => getD_range_self _ i), List.map_id']
      exact uniq_eq_self face (hp2good face hface).1
    rw [List.map_congr_left hpt, List.map_id']
    rw [List.filter_eq_self.mpr ?_]
    intro face hface
    simpa using (hp2good face hface).2
  have htr : toRemove p2 = [] := by
    unfold toRemove
    rw [List.filter_eq_nil_iff]
    intro j hj
    have hjv := hp2ref j hj
    simp [hjv]
  rw [hdedup]
  show deduplicateVertices p2 = p2
  unfold deduplicateVertices
  rw [hfaces2]
  rw [show (⟨p2.vertices, p2.faces⟩ : Polyhedron) = p2 from rfl]
  exact rem_identity p2 htr

/-- Witness for C3: the theorem applied to the concrete tetrahedron. -/
theorem deduplicateVertices_idem_witness :
    deduplicateVertices (deduplicateVertices tetrahedron) =
      deduplicateVertices tetrahedron :=
  deduplicateVertices_idem tetrahedron (by decide)

/-- C5 (amended): `duplicateVertices` takes its duplicate count from the
FIRST vertex, so the claimed behavior holds exactly when every vertex has
the same number k of adjacent faces; in that case every original vertex
gets k duplicates at the same position, the per-face mapping assigns each
incidence a distinct duplicate inside the block of its vertex (one per
adjacent face), the existing faces are rewritten through their private
duplicates, one new face per original vertex connects its k duplicates,
and every edge contributes two 3-vertex bridging faces when a twist is
given and exactly one 4-vertex bridging face when not.  On non-uniform
polyhedra the claim fails (see the counterexample). -/
theorem duplicateVertices_spec (p : Polyhedron) (k : Nat)
    (hne : p.vertices ≠ [])
    (hk : ∀ v < p.vertices.length, (adjacentFaces p v).length = k)
    (twist : Option Twist) :
    (duplicateVertices p twist).vertices =
      p.vertices.flatMap (fun v => List.replicate k v) ∧
    (∀ v < p.vertices.length, ∀ f ∈ adjacentFaces p v,
      v * k ≤ newVertexMapping p f v ∧ newVertexMapping p f v < (v + 1) * k) ∧
    (∀ v < p.vertices.length, ∀ f1 ∈ adjacentFaces p v, ∀ f2 ∈ adjacentFaces p v,
      newVertexMapping p f1 v = newVertexMapping p f2 v → f1 = f2) ∧
    (duplicateVertices p twist).faces =
      (p.faces.enum.map (fun fi => fi.2.map (fun v => newVertexMapping p fi.1 v)))
        ++ (List.range p.vertices.length).map (fun v => List.range' (v * k) k)
        ++ (edges p).flatMap (fun edge =>
          (getEdgeFacePaths edge twist).map
            (fun face => face.map (fun q => newVertexMapping p q.1 q.2))) ∧
    (∀ edge : SEdge,
      (getEdgeFacePaths edge twist).length = (if twist.isSome then 2 else 1) ∧
      ∀ face ∈ getEdgeFacePaths edge twist,
        face.length = (if twist.isSome then 3 else 4)) := by
  have hpos : 0 < p.vertices.length := List.length_pos.mpr hne
  have hcount : dupCount p = k := hk 0 hpos
  refine ⟨?_, ?_, ?_, ?_, ?_⟩
  · unfold duplicateVertices
    rw [hcount]
  · intro v hv f hf
    unfold newVertexMapping
    rw [hcount]
    have hidx : (adjacentFaces p v).indexOf f < (adjacentFaces p v).length :=
      List.indexOf_lt_length.mpr hf
    rw [hk v hv] at hidx
    constructor
    · omega
    · have : (v + 1) * k = v * k + k := by ring
      omega
  · intro v hv f1 hf1 f2 hf2 heq
    unfold newVertexMapping at heq
    have hidx : (adjacentFaces p v).indexOf f1 = (adjacentFaces p v).indexOf f2 := by
      omega
    have h1 : (adjacentFaces p v).indexOf f1 < (adjacentFaces p v).length :=
      List.indexOf_lt_length.mpr hf1
    have h2 : (adjacentFaces p v).indexOf f2 < (adjacentFaces p v).length :=
      List.indexOf_lt_length.mpr hf2
    have hg1 := List.indexOf_get (a := f1) (l := adjacentFaces p v) h1
    have hg2 := List.indexOf_get (a := f2) (l := adjacentFaces p v) h2
    rw [← hg1, ← hg2]
    congr 1
    exact Fin.ext hidx
  · unfold duplicateVertices
    rw [hcount]
  · intro edge
    cases twist with
    | none => exact ⟨rfl, by intro face hface; simp [getEdgeFacePaths] at hface; rw [hface]; rfl⟩
    | some tw =>
      cases tw with
      | left =>
        refine ⟨rfl, ?_⟩
        intro face hface
        simp only [getEdgeFacePaths] at hface
        rcases List.mem_cons.mp hface with h | h
        · rw [h]
          rfl
        · rw [List.mem_singleton.mp h]
          rfl
      | right =>
        refine ⟨rfl, ?_⟩
        intro face hface
        simp only [getEdgeFacePaths] at hface
        rcases List.mem_cons.mp hface with h | h
        · rw [h]
          rfl
        · rw [List.mem_singleton.mp h]
          rfl

/-- Witness for the amended C5: the theorem applied to the concrete
tetrahedron (uniform: every vertex has 3 adjacent faces) with a left
twist; the duplicate count and the bridge shape are checked on the
conclusion. -/
theorem duplicateVertices_spec_witness :
    (duplicateVertices tetrahedron (some .left)).vertices =
      tetrahedron.vertices.flatMap (fun v => List.replicate 3 v) :=
  (duplicateVertices_spec tetrahedron 3 (by decide) (by decide) (some .left)).1
